import Mathlib

/-!
Verification development for the Energy-Storage-Location-Evaluator plugin.

The Python source is shallowly embedded: machine floats become exact
rationals (`ℚ`), Python dicts become insertion-ordered association lists,
the `float('inf')` sentinel used by the mobile model becomes the tagged
type `MScore`, and fallible collaborator calls (routing service, log sink,
coordinate reprojection) become explicit `Except`/`Option`/`Bool` inputs.
Geometry is opaque to the scoring core: every geometric predicate result
(intersection booleans, distances, durations) is an input to the embedding,
mirroring the collaborator contracts of the host-GIS environment.
-/

/-- Python-dict lookup on an insertion-ordered association list
(`d.get(k)`): first entry whose key matches. -/
def dget? {α : Type} (d : List (String × α)) (k : String) : Option α :=
  match d with
  | [] => none
  | (k', v) :: rest => if k' = k then some v else dget? rest k

/-- Python-dict assignment `d[k] = v`: overwrite in place if the key is
present (keeping its position), append at the end otherwise. -/
def dset {α : Type} (d : List (String × α)) (k : String) (v : α) : List (String × α) :=
  match d with
  | [] => [(k, v)]
  | (k', v') :: rest => if k' = k then (k, v) :: rest else (k', v') :: dset rest k v

/-- Keys of an association list, in insertion order. -/
def dkeys {α : Type} (d : List (String × α)) : List String :=
  d.map (·.1)

/-- Values of an association list (`d.values()`), in insertion order. -/
def dvalues {α : Type} (d : List (String × α)) : List α :=
  d.map (·.2)

theorem dget?_dset_self {α : Type} (d : List (String × α)) (k : String) (v : α) :
    dget? (dset d k v) k = some v := by
  induction d with
  | nil => simp [dget?, dset]
  | cons p rest ih =>
    obtain ⟨k', v'⟩ := p
    by_cases h : k' = k
    · simp [dget?, dset, h]
    · simp [dget?, dset, h, ih]

theorem dget?_dset_ne {α : Type} (d : List (String × α)) (k k' : String) (v : α)
    (h : k ≠ k') : dget? (dset d k v) k' = dget? d k' := by
  induction d with
  | nil => simp [dget?, dset, h]
  | cons p rest ih =>
    obtain ⟨k₀, v₀⟩ := p
    by_cases h0 : k₀ = k
    · subst h0
      simp [dget?, dset, h]
    · simp only [dset, if_neg h0]
      by_cases h1 : k₀ = k'
      · simp [dget?, h1]
      · simp [dget?, h1, ih]

/-- A comma-separated weight token: either it parses to a number
(`float(w)` succeeds) or it is non-numeric. -/
inductive Token where
  | num (q : ℚ)
  | bad
deriving DecidableEq, Repr

/-- The three fatal validation failures of `validate_weights`
(`QgsProcessingException` messages, distinguished by cause). -/
inductive WeightError where
  | malformed
  | countMismatch
  | weightSum
deriving DecidableEq, Repr

/-- `[float(w) for w in s.split(',')]`: all tokens must be numeric. -/
def parseTokens : List Token → Option (List ℚ)
  | [] => some []
  | Token.num q :: rest => (parseTokens rest).map (q :: ·)
  | Token.bad :: _ => none

/-- `StaticEnergyStorageEvaluator.validate_weights` (the mobile model's
copy is textually identical).  Inputs are the comma-split token lists of
the two weight strings and the expected counts. -/
def validate_weights (infra_tokens census_tokens : List Token)
    (infra_count census_count : ℕ) : Except WeightError (List ℚ × List ℚ) :=
  match parseTokens infra_tokens, parseTokens census_tokens with
  | some infra_weights, some census_weights =>
    if infra_weights.length ≠ infra_count then .error .countMismatch
    else if census_weights.length ≠ census_count then .error .countMismatch
    else
      let total_sum := infra_weights.sum + census_weights.sum
      if ¬((999 : ℚ)/1000 ≤ total_sum ∧ total_sum ≤ 1001/1000) then .error .weightSum
      else if total_sum ≠ 1 then
        .ok (infra_weights.map (· * (1/total_sum)), census_weights.map (· * (1/total_sum)))
      else .ok (infra_weights, census_weights)
  | _, _ => .error .malformed

/-- The mobile model's raw-score values: either a finite number or the
`float('inf')` sentinel meaning "no usable data". -/
inductive MScore where
  | fin (q : ℚ)
  | inf
deriving DecidableEq, Repr

/-- A feature attribute value as seen from Python: `None`/"NULL",
a float-convertible number, or a non-convertible value. -/
inductive FieldVal where
  | null
  | num (q : ℚ)
  | bad
deriving DecidableEq, Repr

/-- One entry of a static candidate's `infrastructures` dict:
`{'count', 'raw_score', 'normalized_score', 'weighted_score', 'outage_costs'}`. -/
structure InfraInfo where
  count : ℕ
  raw_score : ℚ
  normalized_score : ℚ
  weighted_score : ℚ
  outage_costs : List ℚ
deriving DecidableEq, Repr

/-- The default entry created by the lazy initializers in
`static_candidate.py`. -/
def InfraInfo.init : InfraInfo := ⟨0, 0, 0, 0, []⟩

/-- A static-model candidate (`static_candidate.Candidate`).  `geom` is an
opaque handle to the candidate's point geometry and `buffer` a handle to
its service-area buffer; the scoring core only ever passes them to the
geometry collaborator's predicates. -/
structure SCandidate where
  geom : ℕ
  buffer : ℕ
  infrastructures : List (String × InfraInfo)
  census_data : List (String × ℚ)
  census_scores : List (String × ℚ)
  critical_zones : List (String × ℚ)
  outage_costs : List (String × List ℚ)
  total_infra_score : ℚ
  total_census_score : ℚ
  total_zone_score : ℚ
  final_score : ℚ
  total_outage_cost_savings : ℚ
deriving DecidableEq, Repr

/-- `Candidate.__init__`: empty score maps, zero totals. -/
def SCandidate.init (geom buffer : ℕ) : SCandidate :=
  ⟨geom, buffer, [], [], [], [], [], 0, 0, 0, 0, 0⟩

/-- Fetch-or-create for the `infrastructures` dict, as done by every
lazy initializer in `static_candidate.py`. -/
def SCandidate.infraEntry (c : SCandidate) (infra_name : String) : InfraInfo :=
  (dget? c.infrastructures infra_name).getD InfraInfo.init

/-- `Candidate.update_infrastructure_count`. -/
def SCandidate.update_infrastructure_count (c : SCandidate) (infra_name : String)
    (count : ℕ) : SCandidate :=
  let e := { (c.infraEntry infra_name) with count := count }
  { c with infrastructures := dset c.infrastructures infra_name e }

/-- `Candidate.set_infrastructure_raw_score`. -/
def SCandidate.set_infrastructure_raw_score (c : SCandidate) (infra_name : String)
    (raw_score : ℚ) : SCandidate :=
  let e := { (c.infraEntry infra_name) with raw_score := raw_score }
  { c with infrastructures := dset c.infrastructures infra_name e }

/-- `Candidate.set_infrastructure_score` (static): writes the normalized
score, and the weighted score when one is supplied (`weighted_score=None`
leaves it untouched). -/
def SCandidate.set_infrastructure_score (c : SCandidate) (infra_name : String)
    (normalized_score : ℚ) (weighted_score : Option ℚ) : SCandidate :=
  let e := { (c.infraEntry infra_name) with normalized_score := normalized_score }
  let e := match weighted_score with
    | some w => { e with weighted_score := w }
    | none => e
  { c with infrastructures := dset c.infrastructures infra_name e }

/-- `Candidate.set_census_data`: store a raw census value. -/
def SCandidate.set_census_data (c : SCandidate) (variable_name : String)
    (value : ℚ) : SCandidate :=
  { c with census_data := dset c.census_data variable_name value }

/-- `Candidate.set_census_data_score`: the weighted score is stored twice,
under `variable` in `census_scores` and under `variable + "_score"` in
`census_data` ("for backward compatibility during transition"). -/
def SCandidate.set_census_data_score (c : SCandidate) (var : String)
    (weighted_score : ℚ) : SCandidate :=
  { c with census_data := dset c.census_data (var ++ "_score") weighted_score,
           census_scores := dset c.census_scores var weighted_score }

/-- `Candidate.set_critical_zone_score`. -/
def SCandidate.set_critical_zone_score (c : SCandidate) (zone_type : String)
    (score : ℚ) : SCandidate :=
  { c with critical_zones := dset c.critical_zones zone_type score }

/-- `Candidate.add_infrastructure_outage_cost`: ensure the
`outage_costs[infra_name]` list exists, then append the cost when the
value converts to a number (`None`/"NULL"/non-numeric are dropped),
mirroring it into the infrastructure entry's own list. -/
def SCandidate.add_infrastructure_outage_cost (c : SCandidate) (infra_name : String)
    (outage_cost : FieldVal) : SCandidate :=
  let existing := (dget? c.outage_costs infra_name).getD []
  let c := { c with outage_costs := dset c.outage_costs infra_name existing }
  match outage_cost with
  | FieldVal.num cost =>
    let oc := dset c.outage_costs infra_name (((dget? c.outage_costs infra_name).getD []) ++ [cost])
    let c := { c with outage_costs := oc }
    let e0 := c.infraEntry infra_name
    let e := { e0 with outage_costs := e0.outage_costs ++ [cost] }
    { c with infrastructures := dset c.infrastructures infra_name e }
  | _ => c

/-- `Candidate.calculate_total_outage_cost_savings` (the returned total):
sum the collected costs of every infrastructure type whose weighted score
is strictly positive. -/
def SCandidate.outageSavingsTotal (c : SCandidate) : ℚ :=
  (c.outage_costs.map (fun p =>
    if ((dget? c.infrastructures p.1).getD InfraInfo.init).weighted_score > 0
    then p.2.sum else 0)).sum

/-- `Candidate.calculate_total_outage_cost_savings` also stores the total
on the candidate. -/
def SCandidate.calculate_total_outage_cost_savings (c : SCandidate) : SCandidate :=
  { c with total_outage_cost_savings := c.outageSavingsTotal }

/-- A critical-zone layer: its name and the geometry handles of its
features, scanned in layer order.  The layer's signed score travels
beside it (`zone_scores[i]` zipped with `zone_layers[i]`, the count
equality being enforced at setup). -/
structure ZoneLayer where
  zname : String
  zfeats : List ℕ
deriving DecidableEq, Repr

/-- The inner feature loop of `evaluate_critical_zones` for one candidate
and one zone layer: the first intersecting feature assigns the layer's
score and stops the scan; every non-intersecting feature assigns 0 and
continues.  `inter` is the geometry collaborator's intersection
predicate, on (feature geometry, candidate geometry). -/
def scanZoneS (inter : ℕ → ℕ → Bool) (zname : String) (zscore : ℚ) :
    List ℕ → SCandidate → SCandidate
  | [], c => c
  | g :: rest, c =>
    if inter g c.geom then c.set_critical_zone_score zname zscore
    else scanZoneS inter zname zscore rest (c.set_critical_zone_score zname 0)

/-- `StaticEnergyStorageEvaluator.evaluate_critical_zones`. -/
def static_evaluate_critical_zones (inter : ℕ → ℕ → Bool) (cands : List SCandidate)
    (zones : List (ZoneLayer × ℚ)) : List SCandidate :=
  cands.map (fun c => zones.foldl (fun c z => scanZoneS inter z.1.zname z.2 z.1.zfeats c) c)

/-- One infrastructure feature, seen from one static candidate: the
buffer-intersection predicate result, whether coordinate reprojection
succeeds for this pair, the routing service's response (`none` when the
OSRM request fails), the pair's great-circle distance, and the feature's
`outage_cos` attribute when the field exists. -/
structure SInfraFeat where
  inBuffer : Bool
  transform_ok : Bool
  osrm_dist : Option ℚ
  hav : ℚ
  outage_cos : Option FieldVal
deriving DecidableEq, Repr

/-- `RoadNetworkAnalyzer.calculate_road_distance`: reproject first (an
exception propagates), then ask OSRM; a failed request is caught
internally and returns `float('inf')` "to indicate failure ...
effectively give a score of 0 for this connection". -/
def calculate_road_distance (f : SInfraFeat) : Except Unit MScore :=
  if f.transform_ok then
    match f.osrm_dist with
    | some d => .ok (.fin d)
    | none => .ok .inf
  else .error ()

/-- Distance selection in `evaluate_infrastructure` (static): road method
(0) calls `calculate_road_distance` and falls back to the Haversine
distance if it raises, but the fallback recomputes the coordinate
transform, which fails again for the same pair; any other method uses the
Haversine distance directly (also requiring the transform). -/
def staticPairDistance (distance_method : ℕ) (f : SInfraFeat) : Except Unit MScore :=
  if distance_method = 0 then
    match calculate_road_distance f with
    | .ok d => .ok d
    | .error _ => if f.transform_ok then .ok (.fin f.hav) else .error ()
  else
    if f.transform_ok then .ok (.fin f.hav) else .error ()

/-- Per-feature raw contribution `max(0, buffer_distance - distance)`;
an infinite distance contributes 0. -/
def featScore (buffer_distance : ℚ) : MScore → ℚ
  | .fin d => max 0 (buffer_distance - d)
  | .inf => 0

/-- The feature loop of the static `evaluate_infrastructure` for one
layer, threading the candidate (outage-cost writes), the accumulated
score and the in-buffer count. -/
def static_eval_feats (buffer_distance : ℚ) (distance_method : ℕ) (infra_name : String) :
    List SInfraFeat → SCandidate → ℚ → ℕ → Except Unit (SCandidate × ℚ × ℕ)
  | [], c, total_score, infra_count => .ok (c, total_score, infra_count)
  | f :: rest, c, total_score, infra_count =>
    if f.inBuffer then
      match staticPairDistance distance_method f with
      | .error e => .error e
      | .ok d =>
        let score := featScore buffer_distance d
        let c := if score > 0 then
            match f.outage_cos with
            | some v => c.add_infrastructure_outage_cost infra_name v
            | none => c
          else c
        static_eval_feats buffer_distance distance_method infra_name rest c
          (total_score + score) (infra_count + 1)
    else
      static_eval_feats buffer_distance distance_method infra_name rest c total_score infra_count

/-- An infrastructure layer as seen from one static candidate. -/
structure SInfraLayer where
  lname : String
  lfeats : List SInfraFeat
deriving DecidableEq, Repr

/-- `StaticEnergyStorageEvaluator.evaluate_infrastructure`: per layer, sum
`max(0, buffer - distance)` over in-buffer features, record count and raw
score.  The `infra_weights` argument is accepted and ignored, as in the
source.  A coordinate-transform failure propagates as an exception. -/
def static_evaluate_infrastructure (c : SCandidate) (infra_layers : List SInfraLayer)
    (infra_weights : List ℚ) (buffer_distance : ℚ) (distance_method : ℕ) :
    Except Unit SCandidate :=
  match infra_layers with
  | [] => .ok c
  | layer :: rest =>
    match static_eval_feats buffer_distance distance_method layer.lname layer.lfeats c 0 0 with
    | .error e => .error e
    | .ok (c, total_score, infra_count) =>
      let c := (c.update_infrastructure_count layer.lname infra_count).set_infrastructure_raw_score
        layer.lname total_score
      static_evaluate_infrastructure c rest infra_weights buffer_distance distance_method

/-- The `float('inf')`/`float('-inf')` min/max accumulator pair of the
normalization passes: `none` when no value was folded in (the
accumulators keep their infinite initial values, making the
`max > min` / `max == min` tests false). -/
def rangeOf : List ℚ → Option (ℚ × ℚ)
  | [] => none
  | x :: xs => some (xs.foldl min x, xs.foldl max x)

/-- Shared min-max normalization step: `(raw - min) / (max - min)` when
`max > min`, else 1.0 for positive raw values and 0.0 otherwise (the
`none` case replays the Python comparison `-inf > inf`, which is false,
so it also lands in the equal-range fallback). -/
def normalizeMinMax (r : Option (ℚ × ℚ)) (raw : ℚ) : ℚ :=
  match r with
  | some (mn, mx) => if mx > mn then (raw - mn) / (mx - mn) else if raw > 0 then 1 else 0
  | none => if raw > 0 then 1 else 0

/-- `candidate.infrastructures.get(name, {}).get('raw_score', 0)`. -/
def SCandidate.rawOf (c : SCandidate) (infra_name : String) : ℚ :=
  ((dget? c.infrastructures infra_name).map (·.raw_score)).getD 0

/-- `candidate.census_data.get(var, 0)`. -/
def SCandidate.censusValOf (c : SCandidate) (var : String) : ℚ :=
  (dget? c.census_data var).getD 0

/-- The raw infrastructure scores scanned by the static global min/max
loop, in loop order (candidates outer, layers inner); one single range is
taken over all layers together. -/
def staticInfraRawScores (cands : List SCandidate) (infra_names : List String) : List ℚ :=
  match cands with
  | [] => []
  | c :: rest => infra_names.map c.rawOf ++ staticInfraRawScores rest infra_names

/-- The census values of one variable scanned by the per-variable global
min/max loop. -/
def staticCensusValues (cands : List SCandidate) (var : String) : List ℚ :=
  cands.map (fun c => c.censusValOf var)

/-- The body of the static normalization loop for one infrastructure
layer of one candidate: normalize against the global range, weight by the
layer's weight, store both. -/
def staticApplyInfra (infra_range : Option (ℚ × ℚ)) (c : SCandidate)
    (nw : String × ℚ) : SCandidate :=
  let norm := normalizeMinMax infra_range (c.rawOf nw.1)
  c.set_infrastructure_score nw.1 norm (some (norm * nw.2))

/-- The body of the static normalization loop for one census variable of
one candidate. -/
def staticApplyCensus (census_range : String → Option (ℚ × ℚ)) (c : SCandidate)
    (vw : String × ℚ) : SCandidate :=
  let norm := normalizeMinMax (census_range vw.1) (c.censusValOf vw.1)
  c.set_census_data_score vw.1 (norm * vw.2)

/-- `StaticEnergyStorageEvaluator.normalize_and_weight_scores`: one global
range over all candidates and all infrastructure layers combined, one
range per census variable; then per candidate, write normalized and
weighted scores (layer lists and weight lists are aligned by index). -/
def static_normalize_and_weight_scores (cands : List SCandidate) (infra_names : List String)
    (census_vars : List String) (infra_weights census_weights : List ℚ) : List SCandidate :=
  let infra_range := rangeOf (staticInfraRawScores cands infra_names)
  let census_range := fun v => rangeOf (staticCensusValues cands v)
  cands.map (fun c =>
    (census_vars.zip census_weights).foldl (staticApplyCensus census_range)
      ((infra_names.zip infra_weights).foldl (staticApplyInfra infra_range) c))

/-- The per-candidate body of the static `calculate_final_scores`: sum
the stored weighted infrastructure scores, weighted census scores and
zone modifiers, store the three totals and their sum, then recompute the
outage-cost savings. -/
def SCandidate.finalizeScores (c : SCandidate) : SCandidate :=
  let infra_total := ((dvalues c.infrastructures).map (·.weighted_score)).sum
  let census_total := (dvalues c.census_scores).sum
  let zone_total := (dvalues c.critical_zones).sum
  let c := { c with total_infra_score := infra_total, total_census_score := census_total,
                    total_zone_score := zone_total,
                    final_score := infra_total + census_total + zone_total }
  c.calculate_total_outage_cost_savings

/-- `StaticEnergyStorageEvaluator.calculate_final_scores`.  Each
candidate's body ends with a call to the external log sink; `log_raises`
records, per candidate, whether that collaborator call raises.  There is
no per-candidate handler here, so a raise propagates out of the whole
pass (and `processAlgorithm` re-raises it, aborting the run). -/
def static_calculate_final_scores : List SCandidate → List Bool → Except Unit (List SCandidate)
  | [], _ => .ok []
  | c :: rest, log_raises =>
    let c := c.finalizeScores
    if log_raises.headD false then .error ()
    else
      match static_calculate_final_scores rest log_raises.tail with
      | .ok out => .ok (c :: out)
      | .error e => .error e

/-- A census feature, seen from one candidate: whether its (validity-
fixed) geometry intersects the candidate's, and its named fields. -/
structure CensusFeat where
  cintersects : Bool
  cfields : List (String × FieldVal)
deriving DecidableEq, Repr

/-- The variable-extraction loop of `_process_census_data` for the first
intersecting census feature: a variable is stored only when the field
exists and its value is non-null and numeric. -/
def censusVarsFold (f : CensusFeat) (census_vars : List String) (c : SCandidate) : SCandidate :=
  census_vars.foldl (fun c v =>
    match dget? f.cfields v with
    | some (FieldVal.num value) => c.set_census_data v value
    | _ => c) c

/-- `EnergyStorageLocationEvaluatorAlgorithm._process_census_data`: find
the first census feature intersecting the candidate and extract the
requested variables from it; when none intersects, only a warning is
logged and the candidate is left untouched. -/
def process_census_data (c : SCandidate) (census_feats : List CensusFeat)
    (census_vars : List String) : SCandidate :=
  match census_feats.find? (·.cintersects) with
  | some f => censusVarsFold f census_vars c
  | none => c

/-- One entry of a mobile candidate's `infrastructures` dict:
`{'count', 'raw_score', 'final_score', 'total_duration'}`; `raw_score`
holds a duration sum or the infinite sentinel. -/
structure MInfraInfo where
  count : ℕ
  raw_score : MScore
  final_score : ℚ
  total_duration : ℚ
deriving DecidableEq, Repr

/-- The default entry created by the lazy initializers in
`mobile_candidate.py`. -/
def MInfraInfo.init : MInfraInfo := ⟨0, .fin 0, 0, 0⟩

/-- A mobile-model candidate (`mobile_candidate.Candidate`): no buffer
(mobile units share one externally supplied coverage area). -/
structure MCandidate where
  geom : ℕ
  infrastructures : List (String × MInfraInfo)
  census_data : List (String × ℚ)
  census_scores : List (String × ℚ)
  critical_zones : List (String × ℚ)
  total_infra_score : ℚ
  total_census_score : ℚ
  total_zone_score : ℚ
  final_score : ℚ
deriving DecidableEq, Repr

/-- `Candidate.__init__` (mobile). -/
def MCandidate.init (geom : ℕ) : MCandidate :=
  ⟨geom, [], [], [], [], 0, 0, 0, 0⟩

/-- Fetch-or-create for the mobile `infrastructures` dict. -/
def MCandidate.infraEntry (c : MCandidate) (infra_name : String) : MInfraInfo :=
  (dget? c.infrastructures infra_name).getD MInfraInfo.init

/-- `Candidate.update_infrastructure_count` (mobile). -/
def MCandidate.update_infrastructure_count (c : MCandidate) (infra_name : String)
    (count : ℕ) : MCandidate :=
  let e := { (c.infraEntry infra_name) with count := count }
  { c with infrastructures := dset c.infrastructures infra_name e }

/-- `Candidate.set_infrastructure_raw_score` (mobile). -/
def MCandidate.set_infrastructure_raw_score (c : MCandidate) (infra_name : String)
    (raw_score : MScore) : MCandidate :=
  let e := { (c.infraEntry infra_name) with raw_score := raw_score }
  { c with infrastructures := dset c.infrastructures infra_name e }

/-- `Candidate.set_infrastructure_score` (mobile): stores the already
normalized-and-weighted score under `final_score` (its `weight` argument
is informational only and unused). -/
def MCandidate.set_infrastructure_score (c : MCandidate) (infra_name : String)
    (final_score : ℚ) : MCandidate :=
  let e := { (c.infraEntry infra_name) with final_score := final_score }
  { c with infrastructures := dset c.infrastructures infra_name e }

/-- `Candidate.set_infrastructure_total_duration` (mobile). -/
def MCandidate.set_infrastructure_total_duration (c : MCandidate) (infra_name : String)
    (total_duration : ℚ) : MCandidate :=
  let e := { (c.infraEntry infra_name) with total_duration := total_duration }
  { c with infrastructures := dset c.infrastructures infra_name e }

/-- `Candidate.set_census_data` (mobile). -/
def MCandidate.set_census_data (c : MCandidate) (variable_name : String)
    (value : ℚ) : MCandidate :=
  { c with census_data := dset c.census_data variable_name value }

/-- `Candidate.set_census_data_score` (mobile): same dual storage as the
static candidate. -/
def MCandidate.set_census_data_score (c : MCandidate) (var : String)
    (weighted_score : ℚ) : MCandidate :=
  { c with census_data := dset c.census_data (var ++ "_score") weighted_score,
           census_scores := dset c.census_scores var weighted_score }

/-- `Candidate.set_critical_zone_score` (mobile). -/
def MCandidate.set_critical_zone_score (c : MCandidate) (zone_type : String)
    (score : ℚ) : MCandidate :=
  { c with critical_zones := dset c.critical_zones zone_type score }

/-- The inner feature loop of the mobile `evaluate_critical_zones`,
textually identical to the static one. -/
def scanZoneM (inter : ℕ → ℕ → Bool) (zname : String) (zscore : ℚ) :
    List ℕ → MCandidate → MCandidate
  | [], c => c
  | g :: rest, c =>
    if inter g c.geom then c.set_critical_zone_score zname zscore
    else scanZoneM inter zname zscore rest (c.set_critical_zone_score zname 0)

/-- `MobileEnergyStorageEvaluator.evaluate_critical_zones`. -/
def mobile_evaluate_critical_zones (inter : ℕ → ℕ → Bool) (cands : List MCandidate)
    (zones : List (ZoneLayer × ℚ)) : List MCandidate :=
  cands.map (fun c => zones.foldl (fun c z => scanZoneM inter z.1.zname z.2 z.1.zfeats c) c)

/-- One infrastructure feature, seen from one mobile candidate: the
coverage-area intersection result, whether projection into the routing
collaborator's coordinate system succeeds, and the routing collaborator's
answer — `none` when `calculate_eta` raises (HTTP/network failure),
`some none` when it returns no duration, `some (some d)` a duration. -/
structure MInfraFeat where
  inCoverage : Bool
  transform_ok : Bool
  eta : Option (Option ℚ)
deriving DecidableEq, Repr

/-- The feature loop of the mobile `evaluate_infrastructure` for one
layer: in-coverage features are counted; a transform error, a routing
error, a missing duration or a non-positive duration marks the feature
invalid; valid durations accumulate into both the score sum and the
duration sum. -/
def mobile_eval_feats : List MInfraFeat → ℚ → ℚ → ℕ → ℕ → ℚ × ℚ × ℕ × ℕ
  | [], total_score, total_duration, infra_count, invalid_count =>
    (total_score, total_duration, infra_count, invalid_count)
  | f :: rest, total_score, total_duration, infra_count, invalid_count =>
    if f.inCoverage then
      let infra_count := infra_count + 1
      if f.transform_ok then
        match f.eta with
        | some (some d) =>
          if d > 0 then
            mobile_eval_feats rest (total_score + d) (total_duration + d) infra_count invalid_count
          else
            mobile_eval_feats rest total_score total_duration infra_count (invalid_count + 1)
        | some none =>
          mobile_eval_feats rest total_score total_duration infra_count (invalid_count + 1)
        | none =>
          mobile_eval_feats rest total_score total_duration infra_count (invalid_count + 1)
      else
        mobile_eval_feats rest total_score total_duration infra_count (invalid_count + 1)
    else
      mobile_eval_feats rest total_score total_duration infra_count invalid_count

/-- An infrastructure layer as seen from one mobile candidate. -/
structure MInfraLayer where
  lname : String
  lfeats : List MInfraFeat
deriving DecidableEq, Repr

/-- `MobileEnergyStorageEvaluator.evaluate_infrastructure`: per layer,
when more features were counted than marked invalid, record the valid
count, the duration sum as raw score and the total duration; otherwise
record `count = 0`, `raw_score = float('inf')` and `total_duration = 0`.
The `infra_weights` argument is accepted and ignored, as in the source. -/
def mobile_evaluate_infrastructure (infra_weights : List ℚ) :
    List MInfraLayer → MCandidate → MCandidate
  | [], c => c
  | layer :: rest, c =>
    match mobile_eval_feats layer.lfeats 0 0 0 0 with
    | (total_score, total_duration, infra_count, invalid_count) =>
      let c :=
        if infra_count > invalid_count then
          ((c.update_infrastructure_count layer.lname
              (infra_count - invalid_count)).set_infrastructure_raw_score layer.lname
            (.fin total_score)).set_infrastructure_total_duration layer.lname total_duration
        else
          ((c.update_infrastructure_count layer.lname 0).set_infrastructure_raw_score
            layer.lname .inf).set_infrastructure_total_duration layer.lname 0
      mobile_evaluate_infrastructure infra_weights rest c

/-- `candidate.infrastructures.get(name, {}).get('raw_score', float('inf'))`. -/
def MCandidate.rawOf (c : MCandidate) (infra_name : String) : MScore :=
  ((dget? c.infrastructures infra_name).map (·.raw_score)).getD .inf

/-- `candidate.census_data.get(var, 0)` (mobile). -/
def MCandidate.censusValOf (c : MCandidate) (var : String) : ℚ :=
  (dget? c.census_data var).getD 0

/-- The durations scanned by the mobile global min/max loop, in loop
order; raw scores equal to the infinite sentinel are skipped
(`if duration != float('inf')`). -/
def mobileFiniteDurations (cands : List MCandidate) (infra_names : List String) : List ℚ :=
  match cands with
  | [] => []
  | c :: rest =>
    (infra_names.filterMap (fun n =>
      match c.rawOf n with
      | .fin d => some d
      | .inf => none)) ++ mobileFiniteDurations rest infra_names

/-- The mobile (inverted) normalization of one raw score: the infinite
sentinel maps to 0; with an equal (degenerate) range every finite
duration maps to 1; otherwise `(max - d) / (max - min)` clamped to
[0, 1].  When no finite duration exists at all the range accumulators
keep their infinite initial values; that branch is unreachable for a
finite `d` drawn from the scanned list, and the Python float arithmetic
(`nan` clamped by `max(0, min(1, nan))`) would give 1 there. -/
def normalizeMobile (r : Option (ℚ × ℚ)) : MScore → ℚ
  | .inf => 0
  | .fin d =>
    match r with
    | none => 1
    | some (mn, mx) => if mx = mn then 1 else max 0 (min 1 ((mx - d) / (mx - mn)))

/-- The body of the mobile normalization loop for one infrastructure
layer of one candidate, accumulating the running `total_infra_score`. -/
def mobileApplyInfra (infra_range : Option (ℚ × ℚ)) (p : MCandidate × ℚ)
    (nw : String × ℚ) : MCandidate × ℚ :=
  let normalized := normalizeMobile infra_range (p.1.rawOf nw.1)
  let weighted := normalized * nw.2
  (p.1.set_infrastructure_score nw.1 weighted, p.2 + weighted)

/-- The body of the mobile normalization loop for one census variable of
one candidate, accumulating the running `total_census_score`. -/
def mobileApplyCensus (census_range : String → Option (ℚ × ℚ)) (p : MCandidate × ℚ)
    (vw : String × ℚ) : MCandidate × ℚ :=
  let value := p.1.censusValOf vw.1
  let normalized := max 0 (min 1 (normalizeMinMax (census_range vw.1) value))
  let weighted := normalized * vw.2
  (p.1.set_census_data_score vw.1 weighted, p.2 + weighted)

/-- The whole per-candidate step of the mobile normalization pass. -/
def mobileApplyOne (infra_range : Option (ℚ × ℚ)) (census_range : String → Option (ℚ × ℚ))
    (infra_pairs census_pairs : List (String × ℚ)) (c : MCandidate) : MCandidate :=
  let p := infra_pairs.foldl (mobileApplyInfra infra_range) (c, (0 : ℚ))
  let c := { p.1 with total_infra_score := p.2 }
  let q := census_pairs.foldl (mobileApplyCensus census_range) (c, (0 : ℚ))
  { q.1 with total_census_score := q.2 }

/-- `MobileEnergyStorageEvaluator.normalize_and_weight_scores`: one global
duration range over finite raw scores only; per-variable census ranges;
per candidate, write the weighted infrastructure scores (accumulating
`total_infra_score`) and the weighted census scores (accumulating
`total_census_score`).  The census step reuses the static formula with an
extra clamp to [0, 1]. -/
def mobile_normalize_and_weight_scores (cands : List MCandidate) (infra_names : List String)
    (census_vars : List String) (infra_weights census_weights : List ℚ) : List MCandidate :=
  let infra_range := rangeOf (mobileFiniteDurations cands infra_names)
  let census_range := fun v => rangeOf (cands.map (fun c => c.censusValOf v))
  cands.map (mobileApplyOne infra_range census_range
    (infra_names.zip infra_weights) (census_vars.zip census_weights))

/-- The per-candidate body of the mobile `calculate_final_scores`,
including its per-candidate exception handler: the body stores the zone
total and the final score, then calls the external log sink; when that
collaborator call raises, the handler sets `final_score = 0` and
continues with the next candidate. -/
def MCandidate.finalizeScores (c : MCandidate) (log_raises : Bool) : MCandidate :=
  let zone_total := (dvalues c.critical_zones).sum
  let c := { c with total_zone_score := zone_total,
                    final_score := c.total_infra_score + c.total_census_score + zone_total }
  if log_raises then { c with final_score := 0 } else c

/-- `MobileEnergyStorageEvaluator.calculate_final_scores`. -/
def mobile_calculate_final_scores : List MCandidate → List Bool → List MCandidate
  | [], _ => []
  | c :: rest, log_raises =>
    c.finalizeScores (log_raises.headD false) ::
      mobile_calculate_final_scores rest log_raises.tail

theorem sum_map_mul (l : List ℚ) (k : ℚ) : (l.map (· * k)).sum = l.sum * k := by
  induction l with
  | nil => simp
  | cons x xs ih => simp [ih, add_mul]

theorem parseTokens_none_of_bad (l : List Token) (h : Token.bad ∈ l) :
    parseTokens l = none := by
  induction l with
  | nil => cases h
  | cons t rest ih =>
    cases t with
    | bad => rfl
    | num q =>
      have : Token.bad ∈ rest := by
        cases h with
        | tail _ h => exact h
      simp [parseTokens, ih this]

/-- Claim C1: `validate_weights` fails with the malformed-input error when
any token of either weight string is non-numeric; fails with the
count-mismatch error when a parsed list's length differs from its
expected count; given well-parsed, well-counted lists it fails with the
weight-sum error exactly when the combined sum deviates from 1 by more
than 1/1000; and otherwise returns both lists rescaled by the reciprocal
of their combined sum — order- and length-preserving — so that the two
returned lists sum to exactly 1. -/
theorem C1_validate_weights_contract :
    (∀ its cts ic cc, (Token.bad ∈ its ∨ Token.bad ∈ cts) →
      validate_weights its cts ic cc = .error .malformed) ∧
    (∀ its cts ic cc iw cw, parseTokens its = some iw → parseTokens cts = some cw →
      (iw.length ≠ ic ∨ cw.length ≠ cc) →
      validate_weights its cts ic cc = .error .countMismatch) ∧
    (∀ its cts ic cc iw cw, parseTokens its = some iw → parseTokens cts = some cw →
      iw.length = ic → cw.length = cc →
      (validate_weights its cts ic cc = .error .weightSum ↔ |iw.sum + cw.sum - 1| > 1/1000)) ∧
    (∀ its cts ic cc iw cw, parseTokens its = some iw → parseTokens cts = some cw →
      iw.length = ic → cw.length = cc → |iw.sum + cw.sum - 1| ≤ 1/1000 →
      validate_weights its cts ic cc =
        .ok (iw.map (· * (1/(iw.sum + cw.sum))), cw.map (· * (1/(iw.sum + cw.sum)))) ∧
      (iw.map (· * (1/(iw.sum + cw.sum)))).length = iw.length ∧
      (cw.map (· * (1/(iw.sum + cw.sum)))).length = cw.length ∧
      (iw.map (· * (1/(iw.sum + cw.sum)))).sum +
        (cw.map (· * (1/(iw.sum + cw.sum)))).sum = 1) := by
  have habs : ∀ t : ℚ, |t - 1| ≤ 1/1000 ↔ (999/1000 ≤ t ∧ t ≤ 1001/1000) := by
    intro t
    rw [abs_le]
    constructor
    · rintro ⟨h1, h2⟩
      constructor <;> linarith
    · rintro ⟨h1, h2⟩
      constructor <;> linarith
  refine ⟨?_, ?_, ?_, ?_⟩
  · intro its cts ic cc h
    cases h with
    | inl h =>
      cases h2 : parseTokens cts <;>
        simp [validate_weights, parseTokens_none_of_bad its h, h2]
    | inr h =>
      cases h1 : parseTokens its <;>
        simp [validate_weights, parseTokens_none_of_bad cts h, h1]
  · intro its cts ic cc iw cw h1 h2 h
    cases h with
    | inl h => simp [validate_weights, h1, h2, h]
    | inr h =>
      by_cases hl : iw.length = ic
      · simp [validate_weights, h1, h2, hl, h]
      · simp [validate_weights, h1, h2, hl]
  · intro its cts ic cc iw cw h1 h2 hl1 hl2
    have hmain : validate_weights its cts ic cc = .error .weightSum ↔
        ¬((999 : ℚ)/1000 ≤ iw.sum + cw.sum ∧ iw.sum + cw.sum ≤ 1001/1000) := by
      by_cases hs : (999 : ℚ)/1000 ≤ iw.sum + cw.sum ∧ iw.sum + cw.sum ≤ 1001/1000
      · by_cases he : iw.sum + cw.sum = 1 <;>
          simp [validate_weights, h1, h2, hl1, hl2, hs, he]
      · simp [validate_weights, h1, h2, hl1, hl2, hs]
    rw [hmain, ← habs]
    simp [not_le]
  · intro its cts ic cc iw cw h1 h2 hl1 hl2 hs
    have hs' := (habs _).mp hs
    have hpos : (0 : ℚ) < iw.sum + cw.sum := by
      have := hs'.1
      linarith
    have hne : iw.sum + cw.sum ≠ 0 := ne_of_gt hpos
    refine ⟨?_, by simp, by simp, ?_⟩
    · by_cases he : iw.sum + cw.sum = 1
      · have hmap : ∀ l : List ℚ, l.map (· * (1/(iw.sum + cw.sum))) = l := by
          intro l
          rw [he]
          simp
        rw [hmap, hmap]
        simp only [validate_weights, h1, h2, hl1, hl2, he]
        norm_num
      · simp [validate_weights, h1, h2, hl1, hl2, hs', he]
    · rw [sum_map_mul, sum_map_mul, ← add_mul]
      field_simp

theorem C1_contract_witness :
    validate_weights [Token.bad] [] 1 0 = .error .malformed ∧
    validate_weights [Token.num 1] [] 2 0 = .error .countMismatch ∧
    validate_weights [Token.num 2] [] 1 0 = .error .weightSum ∧
    validate_weights [Token.num (1/4), Token.num (1/4)] [Token.num (1/2)] 2 1 =
      .ok ([(1/4 : ℚ), 1/4].map (· * (1/([(1/4 : ℚ), 1/4].sum + [(1/2 : ℚ)].sum))),
           [(1/2 : ℚ)].map (· * (1/([(1/4 : ℚ), 1/4].sum + [(1/2 : ℚ)].sum)))) := by
  refine ⟨?_, ?_, ?_, ?_⟩
  · exact C1_validate_weights_contract.1 [Token.bad] [] 1 0 (Or.inl (by simp))
  · exact C1_validate_weights_contract.2.1 [Token.num 1] [] 2 0 [1] [] rfl rfl
      (Or.inl (by decide))
  · exact (C1_validate_weights_contract.2.2.1 [Token.num 2] [] 1 0 [2] [] rfl rfl rfl
      rfl).mpr (by norm_num)
  · exact (C1_validate_weights_contract.2.2.2 [Token.num (1/4), Token.num (1/4)]
      [Token.num (1/2)] 2 1 [1/4, 1/4] [1/2] rfl rfl rfl rfl (by norm_num)).1

theorem infraEntry_raw_eq (c : SCandidate) (n : String) :
    (c.infraEntry n).raw_score = c.rawOf n := by
  unfold SCandidate.infraEntry SCandidate.rawOf
  cases h : dget? c.infrastructures n <;> simp [h, InfraInfo.init]

theorem rawOf_set_infrastructure_score (c : SCandidate) (m n : String) (norm : ℚ)
    (wopt : Option ℚ) : (c.set_infrastructure_score m norm wopt).rawOf n = c.rawOf n := by
  by_cases h : m = n
  · subst h
    unfold SCandidate.set_infrastructure_score SCandidate.rawOf
    cases wopt <;>
      simp [dget?_dset_self, infraEntry_raw_eq, SCandidate.rawOf]
  · unfold SCandidate.set_infrastructure_score SCandidate.rawOf
    cases wopt <;> simp [dget?_dset_ne _ _ _ _ h]

theorem rawOf_staticApplyInfra (r : Option (ℚ × ℚ)) (c : SCandidate) (nw : String × ℚ)
    (n : String) : (staticApplyInfra r c nw).rawOf n = c.rawOf n := by
  unfold staticApplyInfra
  exact rawOf_set_infrastructure_score c nw.1 n _ _

theorem staticInfraFold_rawOf (r : Option (ℚ × ℚ)) (pairs : List (String × ℚ)) :
    ∀ (c : SCandidate) (n : String),
    (pairs.foldl (staticApplyInfra r) c).rawOf n = c.rawOf n := by
  induction pairs with
  | nil => intro c n; rfl
  | cons p rest ih =>
    intro c n
    simp only [List.foldl_cons]
    rw [ih, rawOf_staticApplyInfra]

theorem staticInfraFold_notin (r : Option (ℚ × ℚ)) (pairs : List (String × ℚ)) :
    ∀ (c : SCandidate) (n : String), n ∉ pairs.map Prod.fst →
    dget? (pairs.foldl (staticApplyInfra r) c).infrastructures n =
      dget? c.infrastructures n := by
  induction pairs with
  | nil => intro c n _; rfl
  | cons p rest ih =>
    intro c n hn
    simp only [List.map_cons, List.mem_cons, not_or] at hn
    simp only [List.foldl_cons]
    rw [ih _ _ hn.2]
    unfold staticApplyInfra SCandidate.set_infrastructure_score
    cases hw : some (normalizeMinMax r (c.rawOf p.1) * p.2) <;>
      simp [dget?_dset_ne _ _ _ _ (fun h => hn.1 h.symm)]

theorem staticInfraFold_lookup (r : Option (ℚ × ℚ)) (pairs : List (String × ℚ)) :
    ∀ (c : SCandidate) (n : String) (w : ℚ),
    (pairs.map Prod.fst).Nodup → (n, w) ∈ pairs →
    ∃ info, dget? (pairs.foldl (staticApplyInfra r) c).infrastructures n = some info ∧
      info.normalized_score = normalizeMinMax r (c.rawOf n) ∧
      info.weighted_score = normalizeMinMax r (c.rawOf n) * w := by
  induction pairs with
  | nil => intro c n w _ hm; cases hm
  | cons p rest ih =>
    intro c n w hnd hm
    simp only [List.map_cons, List.nodup_cons] at hnd
    simp only [List.foldl_cons]
    cases hm with
    | head =>
      rw [staticInfraFold_notin r rest _ _ hnd.1]
      simp only [staticApplyInfra, SCandidate.set_infrastructure_score]
      exact ⟨_, dget?_dset_self _ _ _, rfl, rfl⟩
    | tail _ hm =>
      obtain ⟨info, hget, hns, hws⟩ := ih (staticApplyInfra r c p) n w hnd.2 hm
      rw [rawOf_staticApplyInfra] at hns hws
      exact ⟨info, hget, hns, hws⟩

theorem staticCensusFold_infra (range : String → Option (ℚ × ℚ))
    (pairs : List (String × ℚ)) : ∀ c : SCandidate,
    (pairs.foldl (staticApplyCensus range) c).infrastructures = c.infrastructures := by
  induction pairs with
  | nil => intro c; rfl
  | cons p rest ih =>
    intro c
    simp only [List.foldl_cons]
    rw [ih]
    rfl

theorem foldl_min_le_init (xs : List ℚ) : ∀ x : ℚ, xs.foldl min x ≤ x := by
  induction xs with
  | nil => intro x; simp
  | cons y ys ih =>
    intro x
    exact le_trans (ih (min x y)) (min_le_left x y)

theorem foldl_min_le_mem (xs : List ℚ) : ∀ (x a : ℚ), a ∈ xs → xs.foldl min x ≤ a := by
  induction xs with
  | nil => intro x a h; cases h
  | cons y ys ih =>
    intro x a h
    cases h with
    | head => exact le_trans (foldl_min_le_init ys (min x y)) (min_le_right x y)
    | tail _ h => exact ih (min x y) a h

theorem le_foldl_max_init (xs : List ℚ) : ∀ x : ℚ, x ≤ xs.foldl max x := by
  induction xs with
  | nil => intro x; simp
  | cons y ys ih =>
    intro x
    exact le_trans (le_max_left x y) (ih (max x y))

theorem le_foldl_max_mem (xs : List ℚ) : ∀ (x a : ℚ), a ∈ xs → a ≤ xs.foldl max x := by
  induction xs with
  | nil => intro x a h; cases h
  | cons y ys ih =>
    intro x a h
    cases h with
    | head => exact le_trans (le_max_right x y) (le_foldl_max_init ys (max x y))
    | tail _ h => exact ih (max x y) a h

theorem foldl_min_mem (xs : List ℚ) : ∀ x : ℚ, xs.foldl min x = x ∨ xs.foldl min x ∈ xs := by
  induction xs with
  | nil => intro x; exact Or.inl rfl
  | cons y ys ih =>
    intro x
    rcases ih (min x y) with h | h
    · rcases min_choice x y with hc | hc
      · exact Or.inl (by rw [List.foldl_cons, h, hc])
      · exact Or.inr (by rw [List.foldl_cons, h, hc]; exact List.mem_cons_self y ys)
    · exact Or.inr (List.mem_cons_of_mem y h)

theorem foldl_max_mem (xs : List ℚ) : ∀ x : ℚ, xs.foldl max x = x ∨ xs.foldl max x ∈ xs := by
  induction xs with
  | nil => intro x; exact Or.inl rfl
  | cons y ys ih =>
    intro x
    rcases ih (max x y) with h | h
    · rcases max_choice x y with hc | hc
      · exact Or.inl (by rw [List.foldl_cons, h, hc])
      · exact Or.inr (by rw [List.foldl_cons, h, hc]; exact List.mem_cons_self y ys)
    · exact Or.inr (List.mem_cons_of_mem y h)

theorem rangeOf_bounds (l : List ℚ) (mn mx : ℚ) (h : rangeOf l = some (mn, mx)) :
    ∀ a ∈ l, mn ≤ a ∧ a ≤ mx := by
  cases l with
  | nil => simp [rangeOf] at h
  | cons x xs =>
    simp only [rangeOf, Option.some.injEq, Prod.mk.injEq] at h
    intro a ha
    constructor
    · rw [← h.1]
      cases ha with
      | head => exact foldl_min_le_init xs x
      | tail _ ha => exact foldl_min_le_mem xs x a ha
    · rw [← h.2]
      cases ha with
      | head => exact le_foldl_max_init xs x
      | tail _ ha => exact le_foldl_max_mem xs x a ha

theorem rangeOf_mem (l : List ℚ) (mn mx : ℚ) (h : rangeOf l = some (mn, mx)) :
    mn ∈ l ∧ mx ∈ l := by
  cases l with
  | nil => simp [rangeOf] at h
  | cons x xs =>
    simp only [rangeOf, Option.some.injEq, Prod.mk.injEq] at h
    constructor
    · rw [← h.1]
      rcases foldl_min_mem xs x with hc | hc
      · rw [hc]; exact List.mem_cons_self x xs
      · exact List.mem_cons_of_mem x hc
    · rw [← h.2]
      rcases foldl_max_mem xs x with hc | hc
      · rw [hc]; exact List.mem_cons_self x xs
      · exact List.mem_cons_of_mem x hc

theorem mem_staticInfraRawScores (cands : List SCandidate) (names : List String)
    (c : SCandidate) (n : String) (hc : c ∈ cands) (hn : n ∈ names) :
    c.rawOf n ∈ staticInfraRawScores cands names := by
  induction cands with
  | nil => cases hc
  | cons c0 rest ih =>
    cases hc with
    | head =>
      unfold staticInfraRawScores
      exact List.mem_append_left _ (List.mem_map_of_mem _ hn)
    | tail _ hc =>
      unfold staticInfraRawScores
      exact List.mem_append_right _ (ih hc)

theorem zip_map_fst_eq_take {α β : Type} (l : List α) :
    ∀ l2 : List β, (l.zip l2).map Prod.fst = l.take l2.length := by
  induction l with
  | nil => intro l2; simp
  | cons x xs ih =>
    intro l2
    cases l2 with
    | nil => simp
    | cons y ys => simp [ih ys]

/-- Concrete candidate with raw scores 0 on both example layers. -/
def cexA : SCandidate :=
  ((SCandidate.init 0 0).set_infrastructure_raw_score "L1" 0).set_infrastructure_raw_score "L2" 0

/-- Concrete candidate with raw scores 10 on layer L1 and 100 on L2. -/
def cexB : SCandidate :=
  ((SCandidate.init 1 1).set_infrastructure_raw_score "L1" 10).set_infrastructure_raw_score
    "L2" 100

/-- Claim C2 is false as stated: the static pass does not use per-layer
ranges.  With layer L1 raw scores 0 and 10 across two candidates (and a
second layer L2 reaching 100), L1's own range is (0, 10), so the claimed
per-layer formula gives candidate B the normalized score
(10 − 0) / (10 − 0) = 1; the code normalizes against the single range
over both layers, (0, 100), and stores 10/100 = 1/10. -/
theorem C2_counterexample :
    rangeOf ([cexA, cexB].map (·.rawOf "L1")) = some (0, 10) ∧
    (((static_normalize_and_weight_scores [cexA, cexB] ["L1", "L2"] [] [1/2, 1/2] [])[1]?).bind
      (fun c => (dget? c.infrastructures "L1").map (·.normalized_score))) = some (1/10) ∧
    ((1 : ℚ)/10) ≠ (10 - 0) / ((10 : ℚ) - 0) := by
  refine ⟨?_, ?_, by norm_num⟩
  · simp [cexA, cexB, SCandidate.init, SCandidate.set_infrastructure_raw_score,
      SCandidate.infraEntry, InfraInfo.init, SCandidate.rawOf, dget?, dset, rangeOf]
  · simp [static_normalize_and_weight_scores, staticApplyInfra, staticApplyCensus,
      cexA, cexB, SCandidate.init, SCandidate.set_infrastructure_raw_score,
      SCandidate.set_infrastructure_score, SCandidate.set_census_data_score,
      SCandidate.infraEntry, SCandidate.rawOf, staticInfraRawScores, staticCensusValues,
      rangeOf, normalizeMinMax, dget?, dset, InfraInfo.init]
    norm_num

/-- Claim C2 (amended): the static normalization pass computes one global
minimum and maximum of raw infrastructure scores across all candidates
and all infrastructure layers combined — not separately per layer — and
writes, for each candidate and each layer,
`normalized = (raw − globalMin) / (globalMax − globalMin)` with the
equal-range fallback `1.0` when the combined max equals the combined min
and raw > 0 (else 0.0), and `weighted = normalized × that layer's
weight`.  Here (mn, mx) is characterized as the joint range: both bound
every scanned raw score and both are themselves scanned raw scores. -/
theorem C2_static_normalization_amended
    (cands : List SCandidate) (infra_names census_vars : List String)
    (iw cw : List ℚ) (i j : ℕ) (c : SCandidate) (n : String) (w : ℚ) (mn mx : ℚ)
    (hc : cands[i]? = some c)
    (hj : (infra_names.zip iw)[j]? = some (n, w))
    (hnd : infra_names.Nodup)
    (hr : rangeOf (staticInfraRawScores cands infra_names) = some (mn, mx)) :
    ∃ c' info,
      (static_normalize_and_weight_scores cands infra_names census_vars iw cw)[i]? = some c' ∧
      dget? c'.infrastructures n = some info ∧
      info.normalized_score =
        (if mx > mn then (c.rawOf n - mn) / (mx - mn) else if c.rawOf n > 0 then 1 else 0) ∧
      info.weighted_score = info.normalized_score * w ∧
      (∀ a ∈ staticInfraRawScores cands infra_names, mn ≤ a ∧ a ≤ mx) ∧
      mn ∈ staticInfraRawScores cands infra_names ∧
      mx ∈ staticInfraRawScores cands infra_names := by
  have hmem : (n, w) ∈ infra_names.zip iw := by
    have := List.getElem?_eq_some_iff.mp hj
    obtain ⟨hlt, heq⟩ := this
    exact heq ▸ List.getElem_mem _
  have hnd2 : ((infra_names.zip iw).map Prod.fst).Nodup := by
    rw [zip_map_fst_eq_take]
    exact hnd.sublist (List.take_sublist _ _)
  obtain ⟨info, hget, hns, hws⟩ :=
    staticInfraFold_lookup (rangeOf (staticInfraRawScores cands infra_names))
      (infra_names.zip iw) c n w hnd2 hmem
  refine ⟨(census_vars.zip cw).foldl
      (staticApplyCensus (fun v => rangeOf (staticCensusValues cands v)))
      ((infra_names.zip iw).foldl
        (staticApplyInfra (rangeOf (staticInfraRawScores cands infra_names))) c),
    info, ?_, ?_, ?_, ?_, ?_, ?_, ?_⟩
  · simp only [static_normalize_and_weight_scores, List.getElem?_map, hc]
    rfl
  · rw [staticCensusFold_infra]
    exact hget
  · rw [hns, hr]
    simp [normalizeMinMax]
  · rw [hws, hns]
  · exact rangeOf_bounds _ _ _ hr
  · exact (rangeOf_mem _ _ _ hr).1
  · exact (rangeOf_mem _ _ _ hr).2

theorem C2_amended_witness :
    ∃ c' info,
      (static_normalize_and_weight_scores [cexA, cexB] ["L1", "L2"] [] [1/2, 1/2] [])[1]? =
        some c' ∧
      dget? c'.infrastructures "L1" = some info ∧
      info.normalized_score =
        (if (100 : ℚ) > 0 then (cexB.rawOf "L1" - 0) / (100 - 0)
         else if cexB.rawOf "L1" > 0 then 1 else 0) ∧
      info.weighted_score = info.normalized_score * (1/2) ∧
      (∀ a ∈ staticInfraRawScores [cexA, cexB] ["L1", "L2"], 0 ≤ a ∧ a ≤ 100) ∧
      (0 : ℚ) ∈ staticInfraRawScores [cexA, cexB] ["L1", "L2"] ∧
      (100 : ℚ) ∈ staticInfraRawScores [cexA, cexB] ["L1", "L2"] :=
  C2_static_normalization_amended [cexA, cexB] ["L1", "L2"] [] [1/2, 1/2] [] 1 0 cexB
    "L1" (1/2) 0 100 (by rfl) (by rfl) (by decide) (by decide)

theorem censusValOf_set_census_data_score (c : SCandidate) (var v : String) (w : ℚ)
    (h : v ≠ var ++ "_score") :
    (c.set_census_data_score var w).censusValOf v = c.censusValOf v := by
  unfold SCandidate.set_census_data_score SCandidate.censusValOf
  simp only []
  rw [dget?_dset_ne _ _ _ _ (fun he => h he.symm)]

theorem censusValOf_staticApplyInfra (r : Option (ℚ × ℚ)) (c : SCandidate)
    (nw : String × ℚ) (v : String) :
    (staticApplyInfra r c nw).censusValOf v = c.censusValOf v := by
  unfold staticApplyInfra SCandidate.set_infrastructure_score SCandidate.censusValOf
  cases some (normalizeMinMax r (c.rawOf nw.1) * nw.2) <;> rfl

theorem staticInfraFold_censusValOf (r : Option (ℚ × ℚ)) (pairs : List (String × ℚ)) :
    ∀ (c : SCandidate) (v : String),
    (pairs.foldl (staticApplyInfra r) c).censusValOf v = c.censusValOf v := by
  induction pairs with
  | nil => intro c v; rfl
  | cons p rest ih =>
    intro c v
    simp only [List.foldl_cons]
    rw [ih, censusValOf_staticApplyInfra]

theorem staticCensusFold_scores_notin (range : String → Option (ℚ × ℚ))
    (pairs : List (String × ℚ)) : ∀ (c : SCandidate) (v : String),
    v ∉ pairs.map Prod.fst →
    dget? (pairs.foldl (staticApplyCensus range) c).census_scores v =
      dget? c.census_scores v := by
  induction pairs with
  | nil => intro c v _; rfl
  | cons p rest ih =>
    intro c v hv
    simp only [List.map_cons, List.mem_cons, not_or] at hv
    simp only [List.foldl_cons]
    rw [ih _ _ hv.2]
    unfold staticApplyCensus SCandidate.set_census_data_score
    exact dget?_dset_ne _ _ _ _ (fun h => hv.1 h.symm)

theorem staticCensusFold_lookup (range : String → Option (ℚ × ℚ))
    (pairs : List (String × ℚ)) : ∀ (c : SCandidate) (v : String) (w : ℚ),
    (pairs.map Prod.fst).Nodup →
    (∀ p ∈ pairs, v ≠ p.1 ++ "_score") →
    (v, w) ∈ pairs →
    dget? (pairs.foldl (staticApplyCensus range) c).census_scores v =
      some (normalizeMinMax (range v) (c.censusValOf v) * w) := by
  induction pairs with
  | nil => intro c v w _ _ hm; cases hm
  | cons p rest ih =>
    intro c v w hnd hsuf hm
    simp only [List.map_cons, List.nodup_cons] at hnd
    simp only [List.foldl_cons]
    cases hm with
    | head =>
      rw [staticCensusFold_scores_notin range rest _ _ hnd.1]
      simp only [staticApplyCensus, SCandidate.set_census_data_score]
      exact dget?_dset_self _ _ _
    | tail _ hm =>
      rw [ih _ _ _ hnd.2 (fun q hq => hsuf q (List.mem_cons_of_mem p hq)) hm]
      simp only [staticApplyCensus]
      rw [censusValOf_set_census_data_score _ _ _ _ (hsuf p (List.mem_cons_self p rest))]

theorem div_mem_Icc_of_bounds (raw mn mx : ℚ) (h1 : mn ≤ raw) (h2 : raw ≤ mx)
    (hlt : mn < mx) : (raw - mn) / (mx - mn) ∈ Set.Icc (0 : ℚ) 1 := by
  have hd : (0 : ℚ) < mx - mn := by linarith
  constructor
  · exact div_nonneg (by linarith) (le_of_lt hd)
  · rw [div_le_one hd]
    linarith

theorem normalizeMinMax_rangeOf_mem (l : List ℚ) (raw : ℚ) (h : raw ∈ l) :
    normalizeMinMax (rangeOf l) raw ∈ Set.Icc (0 : ℚ) 1 := by
  cases hr : rangeOf l with
  | none =>
    by_cases hp : raw > 0 <;> simp [normalizeMinMax, hp]
  | some p =>
    obtain ⟨mn, mx⟩ := p
    have hb := rangeOf_bounds l mn mx hr raw h
    by_cases hlt : mx > mn
    · simp only [normalizeMinMax, hlt, if_true]
      exact div_mem_Icc_of_bounds raw mn mx hb.1 hb.2 hlt
    · by_cases hp : raw > 0 <;> simp [normalizeMinMax, hlt, hp]

theorem normalizeMobile_mem_Icc (r : Option (ℚ × ℚ)) (s : MScore) :
    normalizeMobile r s ∈ Set.Icc (0 : ℚ) 1 := by
  cases s with
  | inf => simp [normalizeMobile]
  | fin d =>
    cases r with
    | none => simp [normalizeMobile]
    | some p =>
      obtain ⟨mn, mx⟩ := p
      by_cases he : mx = mn
      · simp [normalizeMobile, he]
      · simp only [normalizeMobile, he, if_false]
        constructor
        · exact le_max_left 0 _
        · exact max_le (by norm_num) (min_le_left 1 _)

theorem clamp01_mem_Icc (x : ℚ) : max 0 (min 1 x) ∈ Set.Icc (0 : ℚ) 1 := by
  constructor
  · exact le_max_left 0 _
  · exact max_le (by norm_num) (min_le_left 1 _)

theorem weight_mul_mem_Icc (x w : ℚ) (hx : x ∈ Set.Icc (0 : ℚ) 1) (hw : 0 ≤ w) :
    x * w ∈ Set.Icc (0 : ℚ) w := by
  obtain ⟨hx0, hx1⟩ := hx
  constructor
  · exact mul_nonneg hx0 hw
  · have := mul_le_mul_of_nonneg_right hx1 hw
    simpa using this

theorem mrawOf_set_infrastructure_score_ne (c : MCandidate) (m n : String) (f : ℚ)
    (h : m ≠ n) : (c.set_infrastructure_score m f).rawOf n = c.rawOf n := by
  unfold MCandidate.set_infrastructure_score MCandidate.rawOf
  simp only []
  rw [dget?_dset_ne _ _ _ _ h]

theorem mobileApplyInfra_preserve (r : Option (ℚ × ℚ)) (p : MCandidate × ℚ)
    (nw : String × ℚ) :
    (mobileApplyInfra r p nw).1.census_data = p.1.census_data ∧
    (mobileApplyInfra r p nw).1.census_scores = p.1.census_scores ∧
    (mobileApplyInfra r p nw).1.critical_zones = p.1.critical_zones := by
  unfold mobileApplyInfra MCandidate.set_infrastructure_score
  exact ⟨rfl, rfl, rfl⟩

theorem mobileInfraFold_preserve (r : Option (ℚ × ℚ)) (pairs : List (String × ℚ)) :
    ∀ p : MCandidate × ℚ,
    (pairs.foldl (mobileApplyInfra r) p).1.census_data = p.1.census_data ∧
    (pairs.foldl (mobileApplyInfra r) p).1.census_scores = p.1.census_scores ∧
    (pairs.foldl (mobileApplyInfra r) p).1.critical_zones = p.1.critical_zones := by
  induction pairs with
  | nil => intro p; exact ⟨rfl, rfl, rfl⟩
  | cons q rest ih =>
    intro p
    simp only [List.foldl_cons]
    obtain ⟨h1, h2, h3⟩ := ih (mobileApplyInfra r p q)
    obtain ⟨g1, g2, g3⟩ := mobileApplyInfra_preserve r p q
    exact ⟨h1.trans g1, h2.trans g2, h3.trans g3⟩

theorem mobileInfraFold_notin (r : Option (ℚ × ℚ)) (pairs : List (String × ℚ)) :
    ∀ (p : MCandidate × ℚ) (n : String), n ∉ pairs.map Prod.fst →
    dget? ((pairs.foldl (mobileApplyInfra r) p).1).infrastructures n =
      dget? p.1.infrastructures n := by
  induction pairs with
  | nil => intro p n _; rfl
  | cons q rest ih =>
    intro p n hn
    simp only [List.map_cons, List.mem_cons, not_or] at hn
    simp only [List.foldl_cons]
    rw [ih _ _ hn.2]
    unfold mobileApplyInfra MCandidate.set_infrastructure_score
    exact dget?_dset_ne _ _ _ _ (fun h => hn.1 h.symm)

theorem mobileInfraFold_lookup (r : Option (ℚ × ℚ)) (pairs : List (String × ℚ)) :
    ∀ (p : MCandidate × ℚ) (n : String) (w : ℚ),
    (pairs.map Prod.fst).Nodup → (n, w) ∈ pairs →
    ∃ info, dget? ((pairs.foldl (mobileApplyInfra r) p).1).infrastructures n = some info ∧
      info.final_score = normalizeMobile r (p.1.rawOf n) * w := by
  induction pairs with
  | nil => intro p n w _ hm; cases hm
  | cons q rest ih =>
    intro p n w hnd hm
    simp only [List.map_cons, List.nodup_cons] at hnd
    simp only [List.foldl_cons]
    cases hm with
    | head =>
      rw [mobileInfraFold_notin r rest _ _ hnd.1]
      simp only [mobileApplyInfra, MCandidate.set_infrastructure_score]
      exact ⟨_, dget?_dset_self _ _ _, rfl⟩
    | tail _ hm =>
      have hne : q.1 ≠ n := by
        intro he
        exact hnd.1 (he ▸ (List.mem_map_of_mem Prod.fst hm : (n, w).1 ∈ rest.map Prod.fst))
      obtain ⟨info, hget, hfs⟩ := ih (mobileApplyInfra r p q) n w hnd.2 hm
      refine ⟨info, hget, ?_⟩
      rw [hfs]
      simp only [mobileApplyInfra]
      rw [mrawOf_set_infrastructure_score_ne _ _ _ _ hne]

theorem mobileInfraFold_total (r : Option (ℚ × ℚ)) (pairs : List (String × ℚ)) :
    ∀ p : MCandidate × ℚ, (pairs.map Prod.fst).Nodup →
    (pairs.foldl (mobileApplyInfra r) p).2 =
      p.2 + (pairs.map (fun nw => normalizeMobile r (p.1.rawOf nw.1) * nw.2)).sum := by
  induction pairs with
  | nil => intro p _; simp
  | cons q rest ih =>
    intro p hnd
    simp only [List.map_cons, List.nodup_cons] at hnd
    simp only [List.foldl_cons, List.map_cons, List.sum_cons]
    rw [ih _ hnd.2]
    have hmap : rest.map
        (fun nw => normalizeMobile r ((mobileApplyInfra r p q).1.rawOf nw.1) * nw.2) =
        rest.map (fun nw => normalizeMobile r (p.1.rawOf nw.1) * nw.2) := by
      apply List.map_congr_left
      intro nw hnw
      have hne : q.1 ≠ nw.1 := by
        intro he
        exact hnd.1 (he ▸ List.mem_map_of_mem Prod.fst hnw)
      simp only [mobileApplyInfra]
      rw [mrawOf_set_infrastructure_score_ne _ _ _ _ hne]
    rw [hmap]
    simp only [mobileApplyInfra]
    ring

theorem mcensusValOf_set_census_data_score (c : MCandidate) (var v : String) (w : ℚ)
    (h : v ≠ var ++ "_score") :
    (c.set_census_data_score var w).censusValOf v = c.censusValOf v := by
  unfold MCandidate.set_census_data_score MCandidate.censusValOf
  simp only []
  rw [dget?_dset_ne _ _ _ _ (fun he => h he.symm)]

theorem mobileCensusFold_preserve (range : String → Option (ℚ × ℚ))
    (pairs : List (String × ℚ)) : ∀ p : MCandidate × ℚ,
    (pairs.foldl (mobileApplyCensus range) p).1.infrastructures = p.1.infrastructures ∧
    (pairs.foldl (mobileApplyCensus range) p).1.total_infra_score = p.1.total_infra_score ∧
    (pairs.foldl (mobileApplyCensus range) p).1.critical_zones = p.1.critical_zones := by
  induction pairs with
  | nil => intro p; exact ⟨rfl, rfl, rfl⟩
  | cons q rest ih =>
    intro p
    simp only [List.foldl_cons]
    obtain ⟨h1, h2, h3⟩ := ih (mobileApplyCensus range p q)
    refine ⟨h1.trans ?_, h2.trans ?_, h3.trans ?_⟩ <;> rfl

theorem mobileCensusFold_scores_notin (range : String → Option (ℚ × ℚ))
    (pairs : List (String × ℚ)) : ∀ (p : MCandidate × ℚ) (v : String),
    v ∉ pairs.map Prod.fst →
    dget? ((pairs.foldl (mobileApplyCensus range) p).1).census_scores v =
      dget? p.1.census_scores v := by
  induction pairs with
  | nil => intro p v _; rfl
  | cons q rest ih =>
    intro p v hv
    simp only [List.map_cons, List.mem_cons, not_or] at hv
    simp only [List.foldl_cons]
    rw [ih _ _ hv.2]
    unfold mobileApplyCensus MCandidate.set_census_data_score
    exact dget?_dset_ne _ _ _ _ (fun h => hv.1 h.symm)

theorem mobileCensusFold_lookup (range : String → Option (ℚ × ℚ))
    (pairs : List (String × ℚ)) : ∀ (p : MCandidate × ℚ) (v : String) (w : ℚ),
    (pairs.map Prod.fst).Nodup →
    (∀ q ∈ pairs, v ≠ q.1 ++ "_score") →
    (v, w) ∈ pairs →
    dget? ((pairs.foldl (mobileApplyCensus range) p).1).census_scores v =
      some (max 0 (min 1 (normalizeMinMax (range v) (p.1.censusValOf v))) * w) := by
  induction pairs with
  | nil => intro p v w _ _ hm; cases hm
  | cons q rest ih =>
    intro p v w hnd hsuf hm
    simp only [List.map_cons, List.nodup_cons] at hnd
    simp only [List.foldl_cons]
    cases hm with
    | head =>
      rw [mobileCensusFold_scores_notin range rest _ _ hnd.1]
      simp only [mobileApplyCensus, MCandidate.set_census_data_score]
      exact dget?_dset_self _ _ _
    | tail _ hm =>
      rw [ih _ _ _ hnd.2 (fun a ha => hsuf a (List.mem_cons_of_mem q ha)) hm]
      simp only [mobileApplyCensus]
      rw [mcensusValOf_set_census_data_score _ _ _ _ (hsuf q (List.mem_cons_self q rest))]

theorem mobileCensusFold_lookup_ex (range : String → Option (ℚ × ℚ))
    (pairs : List (String × ℚ)) : ∀ (p : MCandidate × ℚ) (v : String) (w : ℚ),
    (pairs.map Prod.fst).Nodup →
    (v, w) ∈ pairs →
    ∃ x, dget? ((pairs.foldl (mobileApplyCensus range) p).1).census_scores v =
      some (max 0 (min 1 (normalizeMinMax (range v) x)) * w) := by
  induction pairs with
  | nil => intro p v w _ hm; cases hm
  | cons q rest ih =>
    intro p v w hnd hm
    simp only [List.map_cons, List.nodup_cons] at hnd
    simp only [List.foldl_cons]
    cases hm with
    | head =>
      refine ⟨p.1.censusValOf v, ?_⟩
      rw [mobileCensusFold_scores_notin range rest _ _ hnd.1]
      simp only [mobileApplyCensus, MCandidate.set_census_data_score]
      exact dget?_dset_self _ _ _
    | tail _ hm =>
      exact ih _ _ _ hnd.2 hm

/-- Concrete candidate with identical positive raw scores on layers a, b
(degenerate range, normalized 1 on both without any division). -/
def cneg : SCandidate :=
  ((SCandidate.init 0 0).set_infrastructure_raw_score "a" 5).set_infrastructure_raw_score "b" 5

/-- Claim C3 is false as stated: `validate_weights` accepts negative
weights (only the combined sum is constrained), and a negative layer
weight makes the weighted score leave [0, w].  The weight string
"-1,2" with census weights "" absent (count 0) validates (sum 1.0); the
candidate's layer a normalizes to 1 and its weighted score is −1, which
does not lie in the (empty) interval [0, −1]. -/
theorem C3_counterexample :
    validate_weights [Token.num (-1), Token.num 2] [] 2 0 = .ok ([-1, 2], []) ∧
    (((static_normalize_and_weight_scores [cneg] ["a", "b"] [] [-1, 2] [])[0]?).bind
      (fun c => (dget? c.infrastructures "a").map (·.weighted_score))) = some ((-1 : ℚ)) ∧
    ¬((-1 : ℚ) ∈ Set.Icc (0 : ℚ) (-1)) := by
  refine ⟨?_, ?_, ?_⟩
  · simp [validate_weights, parseTokens]
    norm_num
  · simp [static_normalize_and_weight_scores, staticApplyInfra, staticApplyCensus,
      cneg, SCandidate.init, SCandidate.set_infrastructure_raw_score,
      SCandidate.set_infrastructure_score, SCandidate.infraEntry, SCandidate.rawOf,
      staticInfraRawScores, rangeOf, normalizeMinMax, dget?, dset, InfraInfo.init]
  · simp [Set.mem_Icc]

/-- Claim C3 (amended): after the normalization pass, EVERY candidate's
stored normalized infrastructure and census scores lie in [0, 1] (in the
static model each raw value is normalized against a range that contains
it; in the mobile model the formula is clamped and the sentinel maps to
0), and every stored weighted score of a layer or variable whose weight
w is NONNEGATIVE lies in [0, w].  Each conjunct is index-pinned: the
candidate at position i of the input list determines the candidate at
position i of the output list, whose stored entry for the given layer or
variable is expressed by the code's formula applied to that same
candidate's raw value.  Validation does not force nonnegative weights,
so the [0, w] bound carries the extra hypothesis 0 ≤ w; census variables
are additionally assumed not to collide with the "_score" suffix keys of
the dual-storage echo. -/
theorem C3_amended_bounds :
    (∀ (cands : List SCandidate) (infra_names census_vars : List String)
       (iw cw : List ℚ) (i : ℕ) (c : SCandidate) (n : String) (w : ℚ),
       cands[i]? = some c → (n, w) ∈ infra_names.zip iw → infra_names.Nodup →
       ∃ c' info,
         (static_normalize_and_weight_scores cands infra_names census_vars iw cw)[i]? =
           some c' ∧
         dget? c'.infrastructures n = some info ∧
         info.normalized_score ∈ Set.Icc (0 : ℚ) 1 ∧
         info.weighted_score = info.normalized_score * w ∧
         (0 ≤ w → info.weighted_score ∈ Set.Icc (0 : ℚ) w)) ∧
    (∀ (cands : List SCandidate) (infra_names census_vars : List String)
       (iw cw : List ℚ) (i : ℕ) (c : SCandidate) (v : String) (w : ℚ),
       cands[i]? = some c → (v, w) ∈ census_vars.zip cw → census_vars.Nodup →
       (∀ v' ∈ census_vars, v ≠ v' ++ "_score") →
       ∃ c',
         (static_normalize_and_weight_scores cands infra_names census_vars iw cw)[i]? =
           some c' ∧
         dget? c'.census_scores v = some
           (normalizeMinMax (rangeOf (staticCensusValues cands v)) (c.censusValOf v) * w) ∧
         normalizeMinMax (rangeOf (staticCensusValues cands v)) (c.censusValOf v) ∈
           Set.Icc (0 : ℚ) 1 ∧
         (0 ≤ w →
           normalizeMinMax (rangeOf (staticCensusValues cands v)) (c.censusValOf v) * w ∈
             Set.Icc (0 : ℚ) w)) ∧
    (∀ (cands : List MCandidate) (infra_names census_vars : List String)
       (iw cw : List ℚ) (i : ℕ) (c : MCandidate) (n : String) (w : ℚ),
       cands[i]? = some c → (n, w) ∈ infra_names.zip iw → infra_names.Nodup →
       ∃ c' info,
         (mobile_normalize_and_weight_scores cands infra_names census_vars iw cw)[i]? =
           some c' ∧
         dget? c'.infrastructures n = some info ∧
         info.final_score = normalizeMobile
           (rangeOf (mobileFiniteDurations cands infra_names)) (c.rawOf n) * w ∧
         normalizeMobile (rangeOf (mobileFiniteDurations cands infra_names)) (c.rawOf n) ∈
           Set.Icc (0 : ℚ) 1 ∧
         (0 ≤ w → info.final_score ∈ Set.Icc (0 : ℚ) w)) ∧
    (∀ (cands : List MCandidate) (infra_names census_vars : List String)
       (iw cw : List ℚ) (i : ℕ) (c : MCandidate) (v : String) (w : ℚ),
       cands[i]? = some c → (v, w) ∈ census_vars.zip cw → census_vars.Nodup →
       (∀ v' ∈ census_vars, v ≠ v' ++ "_score") →
       ∃ c',
         (mobile_normalize_and_weight_scores cands infra_names census_vars iw cw)[i]? =
           some c' ∧
         dget? c'.census_scores v = some
           (max 0 (min 1 (normalizeMinMax
             (rangeOf (cands.map (fun c0 => c0.censusValOf v)))
             (c.censusValOf v))) * w) ∧
         max 0 (min 1 (normalizeMinMax
           (rangeOf (cands.map (fun c0 => c0.censusValOf v)))
           (c.censusValOf v))) ∈ Set.Icc (0 : ℚ) 1 ∧
         (0 ≤ w →
           max 0 (min 1 (normalizeMinMax
             (rangeOf (cands.map (fun c0 => c0.censusValOf v)))
             (c.censusValOf v))) * w ∈ Set.Icc (0 : ℚ) w)) := by
  refine ⟨?_, ?_, ?_, ?_⟩
  · intro cands infra_names census_vars iw cw i c n w hc hm hnd
    have hcm : c ∈ cands := by
      obtain ⟨hlt, heq⟩ := List.getElem?_eq_some_iff.mp hc
      exact heq ▸ List.getElem_mem _
    have hnd2 : ((infra_names.zip iw).map Prod.fst).Nodup := by
      rw [zip_map_fst_eq_take]
      exact hnd.sublist (List.take_sublist _ _)
    obtain ⟨info, hget, hns, hws⟩ :=
      staticInfraFold_lookup (rangeOf (staticInfraRawScores cands infra_names))
        (infra_names.zip iw) c n w hnd2 hm
    have hmemS : c.rawOf n ∈ staticInfraRawScores cands infra_names :=
      mem_staticInfraRawScores cands infra_names c n hcm (List.of_mem_zip hm).1
    have hbound := normalizeMinMax_rangeOf_mem _ _ hmemS
    refine ⟨(census_vars.zip cw).foldl
        (staticApplyCensus (fun u => rangeOf (staticCensusValues cands u)))
        ((infra_names.zip iw).foldl
          (staticApplyInfra (rangeOf (staticInfraRawScores cands infra_names))) c),
      info, ?_, ?_, ?_, ?_, ?_⟩
    · simp only [static_normalize_and_weight_scores, List.getElem?_map, hc]
      rfl
    · rw [staticCensusFold_infra]
      exact hget
    · rw [hns]; exact hbound
    · rw [hws, hns]
    · intro hw
      rw [hws]
      exact weight_mul_mem_Icc _ _ hbound hw
  · intro cands infra_names census_vars iw cw i c v w hc hm hnd hsuf
    have hcm : c ∈ cands := by
      obtain ⟨hlt, heq⟩ := List.getElem?_eq_some_iff.mp hc
      exact heq ▸ List.getElem_mem _
    have hnd2 : ((census_vars.zip cw).map Prod.fst).Nodup := by
      rw [zip_map_fst_eq_take]
      exact hnd.sublist (List.take_sublist _ _)
    have hsuf2 : ∀ q ∈ census_vars.zip cw, v ≠ q.1 ++ "_score" :=
      fun q hq => hsuf q.1 (List.of_mem_zip hq).1
    have hl := staticCensusFold_lookup (fun u => rangeOf (staticCensusValues cands u))
      (census_vars.zip cw)
      ((infra_names.zip iw).foldl
        (staticApplyInfra (rangeOf (staticInfraRawScores cands infra_names))) c)
      v w hnd2 hsuf2 hm
    rw [staticInfraFold_censusValOf] at hl
    have hmemS : c.censusValOf v ∈ staticCensusValues cands v :=
      List.mem_map_of_mem _ hcm
    have hbound := normalizeMinMax_rangeOf_mem _ _ hmemS
    refine ⟨(census_vars.zip cw).foldl
        (staticApplyCensus (fun u => rangeOf (staticCensusValues cands u)))
        ((infra_names.zip iw).foldl
          (staticApplyInfra (rangeOf (staticInfraRawScores cands infra_names))) c),
      ?_, hl, hbound, ?_⟩
    · simp only [static_normalize_and_weight_scores, List.getElem?_map, hc]
      rfl
    · intro hw
      exact weight_mul_mem_Icc _ _ hbound hw
  · intro cands infra_names census_vars iw cw i c n w hc hm hnd
    have hnd2 : ((infra_names.zip iw).map Prod.fst).Nodup := by
      rw [zip_map_fst_eq_take]
      exact hnd.sublist (List.take_sublist _ _)
    obtain ⟨info, hget, hfs⟩ :=
      mobileInfraFold_lookup (rangeOf (mobileFiniteDurations cands infra_names))
        (infra_names.zip iw) (c, 0) n w hnd2 hm
    have hbound := normalizeMobile_mem_Icc
      (rangeOf (mobileFiniteDurations cands infra_names)) (c.rawOf n)
    refine ⟨mobileApplyOne (rangeOf (mobileFiniteDurations cands infra_names))
        (fun u => rangeOf (cands.map (fun c0 => c0.censusValOf u)))
        (infra_names.zip iw) (census_vars.zip cw) c,
      info, ?_, ?_, hfs, hbound, ?_⟩
    · simp only [mobile_normalize_and_weight_scores, List.getElem?_map, hc]
      rfl
    · simp only [mobileApplyOne]
      rw [(mobileCensusFold_preserve _ _ _).1]
      exact hget
    · intro hw
      rw [hfs]
      exact weight_mul_mem_Icc _ _ hbound hw
  · intro cands infra_names census_vars iw cw i c v w hc hm hnd hsuf
    have hnd2 : ((census_vars.zip cw).map Prod.fst).Nodup := by
      rw [zip_map_fst_eq_take]
      exact hnd.sublist (List.take_sublist _ _)
    have hsuf2 : ∀ q ∈ census_vars.zip cw, v ≠ q.1 ++ "_score" :=
      fun q hq => hsuf q.1 (List.of_mem_zip hq).1
    have hl := mobileCensusFold_lookup
      (fun u => rangeOf (cands.map (fun c0 => c0.censusValOf u)))
      (census_vars.zip cw)
      ({ ((infra_names.zip iw).foldl
          (mobileApplyInfra (rangeOf (mobileFiniteDurations cands infra_names)))
          (c, 0)).1 with
        total_infra_score :=
          ((infra_names.zip iw).foldl
            (mobileApplyInfra (rangeOf (mobileFiniteDurations cands infra_names)))
            (c, 0)).2 }, 0)
      v w hnd2 hsuf2 hm
    have hcd : (({ ((infra_names.zip iw).foldl
        (mobileApplyInfra (rangeOf (mobileFiniteDurations cands infra_names)))
        (c, 0)).1 with
      total_infra_score :=
        ((infra_names.zip iw).foldl
          (mobileApplyInfra (rangeOf (mobileFiniteDurations cands infra_names)))
          (c, 0)).2 } : MCandidate)).census_data = c.census_data :=
      (mobileInfraFold_preserve _ _ _).1
    have hval : (({ ((infra_names.zip iw).foldl
        (mobileApplyInfra (rangeOf (mobileFiniteDurations cands infra_names)))
        (c, 0)).1 with
      total_infra_score :=
        ((infra_names.zip iw).foldl
          (mobileApplyInfra (rangeOf (mobileFiniteDurations cands infra_names)))
          (c, 0)).2 } : MCandidate)).censusValOf v = c.censusValOf v := by
      unfold MCandidate.censusValOf
      rw [hcd]
    rw [hval] at hl
    have hbound := clamp01_mem_Icc
      (normalizeMinMax (rangeOf (cands.map (fun c0 => c0.censusValOf v)))
        (c.censusValOf v))
    refine ⟨mobileApplyOne (rangeOf (mobileFiniteDurations cands infra_names))
        (fun u => rangeOf (cands.map (fun c0 => c0.censusValOf u)))
        (infra_names.zip iw) (census_vars.zip cw) c, ?_, ?_, hbound, ?_⟩
    · simp only [mobile_normalize_and_weight_scores, List.getElem?_map, hc]
      rfl
    · simp only [mobileApplyOne]
      exact hl
    · intro hw
      exact weight_mul_mem_Icc _ _ hbound hw

theorem C3_amended_witness :
    (∃ c' info,
       (static_normalize_and_weight_scores [cneg] ["a", "b"] [] [-1, 2] [])[0]? =
         some c' ∧
       dget? c'.infrastructures "b" = some info ∧
       info.normalized_score ∈ Set.Icc (0 : ℚ) 1 ∧
       info.weighted_score = info.normalized_score * 2 ∧
       ((0 : ℚ) ≤ 2 → info.weighted_score ∈ Set.Icc (0 : ℚ) 2)) ∧
    (∃ c',
       (static_normalize_and_weight_scores [cneg] ["a", "b"] ["p"] [-1, 2] [1])[0]? =
         some c' ∧
       dget? c'.census_scores "p" = some
         (normalizeMinMax (rangeOf (staticCensusValues [cneg] "p"))
           (cneg.censusValOf "p") * 1) ∧
       normalizeMinMax (rangeOf (staticCensusValues [cneg] "p")) (cneg.censusValOf "p") ∈
         Set.Icc (0 : ℚ) 1 ∧
       ((0 : ℚ) ≤ 1 →
         normalizeMinMax (rangeOf (staticCensusValues [cneg] "p"))
           (cneg.censusValOf "p") * 1 ∈ Set.Icc (0 : ℚ) 1)) ∧
    (∃ c' info,
       (mobile_normalize_and_weight_scores [MCandidate.init 0] ["a"] [] [1] [])[0]? =
         some c' ∧
       dget? c'.infrastructures "a" = some info ∧
       info.final_score = normalizeMobile
         (rangeOf (mobileFiniteDurations [MCandidate.init 0] ["a"]))
         ((MCandidate.init 0).rawOf "a") * 1 ∧
       normalizeMobile (rangeOf (mobileFiniteDurations [MCandidate.init 0] ["a"]))
         ((MCandidate.init 0).rawOf "a") ∈ Set.Icc (0 : ℚ) 1 ∧
       ((0 : ℚ) ≤ 1 → info.final_score ∈ Set.Icc (0 : ℚ) 1)) ∧
    (∃ c',
       (mobile_normalize_and_weight_scores [MCandidate.init 0] ["a"] ["p"] [1] [1])[0]? =
         some c' ∧
       dget? c'.census_scores "p" = some
         (max 0 (min 1 (normalizeMinMax
           (rangeOf ([MCandidate.init 0].map (fun c0 => c0.censusValOf "p")))
           ((MCandidate.init 0).censusValOf "p"))) * 1) ∧
       max 0 (min 1 (normalizeMinMax
         (rangeOf ([MCandidate.init 0].map (fun c0 => c0.censusValOf "p")))
         ((MCandidate.init 0).censusValOf "p"))) ∈ Set.Icc (0 : ℚ) 1 ∧
       ((0 : ℚ) ≤ 1 →
         max 0 (min 1 (normalizeMinMax
           (rangeOf ([MCandidate.init 0].map (fun c0 => c0.censusValOf "p")))
           ((MCandidate.init 0).censusValOf "p"))) * 1 ∈ Set.Icc (0 : ℚ) 1)) := by
  refine ⟨?_, ?_, ?_, ?_⟩
  · exact C3_amended_bounds.1 [cneg] ["a", "b"] [] [-1, 2] [] 0 cneg "b" 2
      rfl (by simp) (by decide)
  · exact C3_amended_bounds.2.1 [cneg] ["a", "b"] ["p"] [-1, 2] [1] 0 cneg "p" 1
      rfl (by simp) (by decide) (by decide)
  · exact C3_amended_bounds.2.2.1 [MCandidate.init 0] ["a"] [] [1] [] 0
      (MCandidate.init 0) "a" 1 rfl (by simp) (by decide)
  · exact C3_amended_bounds.2.2.2 [MCandidate.init 0] ["a"] ["p"] [1] [1] 0
      (MCandidate.init 0) "p" 1 rfl (by simp) (by decide) (by decide)

theorem static_calc_pure (cands : List SCandidate) :
    static_calculate_final_scores cands [] = .ok (cands.map SCandidate.finalizeScores) := by
  induction cands with
  | nil => rfl
  | cons c rest ih =>
    simp only [static_calculate_final_scores, List.headD, List.tail, ih, List.map_cons]
    rfl

theorem mobile_calc_pure (cands : List MCandidate) :
    mobile_calculate_final_scores cands [] = cands.map (·.finalizeScores false) := by
  induction cands with
  | nil => rfl
  | cons c rest ih =>
    simp only [mobile_calculate_final_scores, List.headD, List.tail, ih, List.map_cons]

theorem finalizeScores_fields (c : SCandidate) :
    (c.finalizeScores).total_infra_score =
      ((dvalues c.infrastructures).map (·.weighted_score)).sum ∧
    (c.finalizeScores).total_census_score = (dvalues c.census_scores).sum ∧
    (c.finalizeScores).total_zone_score = (dvalues c.critical_zones).sum ∧
    (c.finalizeScores).final_score =
      ((dvalues c.infrastructures).map (·.weighted_score)).sum +
        (dvalues c.census_scores).sum + (dvalues c.critical_zones).sum := by
  refine ⟨rfl, rfl, rfl, rfl⟩

theorem finalizeScores_maps (c : SCandidate) :
    (c.finalizeScores).infrastructures = c.infrastructures ∧
    (c.finalizeScores).census_scores = c.census_scores ∧
    (c.finalizeScores).critical_zones = c.critical_zones := by
  refine ⟨rfl, rfl, rfl⟩

theorem finalizeScores_idem (c : SCandidate) :
    ((c.finalizeScores).finalizeScores).final_score = (c.finalizeScores).final_score := by
  rfl

theorem mfinalize_fields (c : MCandidate) :
    (c.finalizeScores false).total_zone_score = (dvalues c.critical_zones).sum ∧
    (c.finalizeScores false).final_score =
      c.total_infra_score + c.total_census_score + (dvalues c.critical_zones).sum := by
  refine ⟨rfl, rfl⟩

theorem mfinalize_idem (c : MCandidate) :
    (((c.finalizeScores false)).finalizeScores false).final_score =
      (c.finalizeScores false).final_score := by
  rfl

theorem mcensusValOf_apply_census_ne (range : String → Option (ℚ × ℚ))
    (p : MCandidate × ℚ) (q : String × ℚ) (v : String) (h : v ≠ q.1 ++ "_score") :
    (mobileApplyCensus range p q).1.censusValOf v = p.1.censusValOf v := by
  simp only [mobileApplyCensus]
  exact mcensusValOf_set_census_data_score _ _ _ _ h

theorem mobileCensusFold_total (range : String → Option (ℚ × ℚ))
    (pairs : List (String × ℚ)) : ∀ p : MCandidate × ℚ,
    (∀ q1 ∈ pairs, ∀ q2 ∈ pairs, q1.1 ≠ q2.1 ++ "_score") →
    (pairs.foldl (mobileApplyCensus range) p).2 =
      p.2 + (pairs.map (fun vw =>
        max 0 (min 1 (normalizeMinMax (range vw.1) (p.1.censusValOf vw.1))) * vw.2)).sum := by
  induction pairs with
  | nil => intro p _; simp
  | cons q rest ih =>
    intro p hsuf
    simp only [List.foldl_cons, List.map_cons, List.sum_cons]
    rw [ih _ (fun q1 h1 q2 h2 =>
      hsuf q1 (List.mem_cons_of_mem q h1) q2 (List.mem_cons_of_mem q h2))]
    have hmap : rest.map (fun vw =>
        max 0 (min 1 (normalizeMinMax (range vw.1)
          ((mobileApplyCensus range p q).1.censusValOf vw.1))) * vw.2) =
        rest.map (fun vw =>
          max 0 (min 1 (normalizeMinMax (range vw.1) (p.1.censusValOf vw.1))) * vw.2) := by
      apply List.map_congr_left
      intro vw hvw
      rw [mcensusValOf_apply_census_ne range p q vw.1
        (hsuf vw (List.mem_cons_of_mem q hvw) q (List.mem_cons_self q rest))]
    rw [hmap]
    simp only [mobileApplyCensus]
    ring

/-- Claim C4: the final-score aggregation.  Static model: the pass sets
`totalInfrastructureScore` to the sum of stored per-layer weighted
scores, `totalCensusScore` to the sum of weighted census scores,
`totalZoneScore` to the sum of zone modifiers, and `finalScore` to the
sum of the three totals; re-running the aggregation on the stored fields
yields the identical final score.  Mobile model: the pass sets
`totalZoneScore` and `finalScore = totalInfra + totalCensus + zoneSum`
from the stored totals, idempotently; and the stored totals themselves
are, after the normalization pass, exactly the sums of the per-layer
weighted infrastructure scores and of the per-variable weighted census
scores it writes. -/
theorem C4_final_score_aggregation :
    (∀ (cands : List SCandidate) (i : ℕ) (c : SCandidate), cands[i]? = some c →
      ∃ out c', static_calculate_final_scores cands [] = .ok out ∧
        out[i]? = some c' ∧
        c'.total_infra_score = ((dvalues c.infrastructures).map (·.weighted_score)).sum ∧
        c'.total_census_score = (dvalues c.census_scores).sum ∧
        c'.total_zone_score = (dvalues c.critical_zones).sum ∧
        c'.final_score = c'.total_infra_score + c'.total_census_score + c'.total_zone_score ∧
        (c'.finalizeScores).final_score = c'.final_score) ∧
    (∀ (cands : List MCandidate) (i : ℕ) (c : MCandidate), cands[i]? = some c →
      ∃ c', (mobile_calculate_final_scores cands [])[i]? = some c' ∧
        c'.total_zone_score = (dvalues c.critical_zones).sum ∧
        c'.final_score =
          c.total_infra_score + c.total_census_score + (dvalues c.critical_zones).sum ∧
        (c'.finalizeScores false).final_score = c'.final_score) ∧
    (∀ (cands : List MCandidate) (infra_names census_vars : List String)
       (iw cw : List ℚ) (c : MCandidate), c ∈ cands → infra_names.Nodup →
       (∀ v1 ∈ census_vars, ∀ v2 ∈ census_vars, v1 ≠ v2 ++ "_score") →
       ∃ c', c' ∈ mobile_normalize_and_weight_scores cands infra_names census_vars iw cw ∧
         c'.total_infra_score = ((infra_names.zip iw).map (fun nw =>
           normalizeMobile (rangeOf (mobileFiniteDurations cands infra_names))
             (c.rawOf nw.1) * nw.2)).sum ∧
         (∀ n w, (n, w) ∈ infra_names.zip iw → ∃ info,
           dget? c'.infrastructures n = some info ∧
           info.final_score = normalizeMobile
             (rangeOf (mobileFiniteDurations cands infra_names)) (c.rawOf n) * w) ∧
         c'.total_census_score = ((census_vars.zip cw).map (fun vw =>
           max 0 (min 1 (normalizeMinMax
             (rangeOf (cands.map (fun c0 => c0.censusValOf vw.1)))
             (c.censusValOf vw.1))) * vw.2)).sum) := by
  refine ⟨?_, ?_, ?_⟩
  · intro cands i c hc
    refine ⟨cands.map SCandidate.finalizeScores, c.finalizeScores, static_calc_pure cands,
      ?_, (finalizeScores_fields c).1, (finalizeScores_fields c).2.1,
      (finalizeScores_fields c).2.2.1, ?_, finalizeScores_idem c⟩
    · simp [List.getElem?_map, hc]
    · rw [(finalizeScores_fields c).1, (finalizeScores_fields c).2.1,
        (finalizeScores_fields c).2.2.1]
      exact (finalizeScores_fields c).2.2.2
  · intro cands i c hc
    refine ⟨c.finalizeScores false, ?_, (mfinalize_fields c).1, (mfinalize_fields c).2,
      mfinalize_idem c⟩
    rw [mobile_calc_pure]
    simp [List.getElem?_map, hc]
  · intro cands infra_names census_vars iw cw c hc hnd hsufv
    have hnd2 : ((infra_names.zip iw).map Prod.fst).Nodup := by
      rw [zip_map_fst_eq_take]
      exact hnd.sublist (List.take_sublist _ _)
    have hsuf2 : ∀ q1 ∈ census_vars.zip cw, ∀ q2 ∈ census_vars.zip cw,
        q1.1 ≠ q2.1 ++ "_score" := fun q1 h1 q2 h2 =>
      hsufv q1.1 (List.of_mem_zip h1).1 q2.1 (List.of_mem_zip h2).1
    refine ⟨_, List.mem_map_of_mem _ hc, ?_, ?_, ?_⟩
    · simp only [mobileApplyOne]
      rw [(mobileCensusFold_preserve _ _ _).2.1]
      simp only []
      rw [mobileInfraFold_total _ _ _ hnd2]
      simp
    · intro n w hm
      obtain ⟨info, hget, hfs⟩ :=
        mobileInfraFold_lookup (rangeOf (mobileFiniteDurations cands infra_names))
          (infra_names.zip iw) (c, 0) n w hnd2 hm
      refine ⟨info, ?_, hfs⟩
      simp only [mobileApplyOne]
      rw [(mobileCensusFold_preserve _ _ _).1]
      exact hget
    · simp only [mobileApplyOne]
      rw [mobileCensusFold_total _ _ _ hsuf2]
      have hcd : (({ ((infra_names.zip iw).foldl
          (mobileApplyInfra (rangeOf (mobileFiniteDurations cands infra_names)))
          (c, 0)).1 with
        total_infra_score :=
          ((infra_names.zip iw).foldl
            (mobileApplyInfra (rangeOf (mobileFiniteDurations cands infra_names)))
            (c, 0)).2 } : MCandidate)).census_data = c.census_data := by
        exact (mobileInfraFold_preserve _ _ _).1
      have hval : ∀ v : String, (({ ((infra_names.zip iw).foldl
          (mobileApplyInfra (rangeOf (mobileFiniteDurations cands infra_names)))
          (c, 0)).1 with
        total_infra_score :=
          ((infra_names.zip iw).foldl
            (mobileApplyInfra (rangeOf (mobileFiniteDurations cands infra_names)))
            (c, 0)).2 } : MCandidate)).censusValOf v = c.censusValOf v := by
        intro v
        unfold MCandidate.censusValOf
        rw [hcd]
      simp only [hval]
      simp

theorem C4_aggregation_witness :
    (∃ out c', static_calculate_final_scores [cneg] [] = .ok out ∧
      out[0]? = some c' ∧
      c'.total_infra_score = ((dvalues cneg.infrastructures).map (·.weighted_score)).sum ∧
      c'.total_census_score = (dvalues cneg.census_scores).sum ∧
      c'.total_zone_score = (dvalues cneg.critical_zones).sum ∧
      c'.final_score = c'.total_infra_score + c'.total_census_score + c'.total_zone_score ∧
      (c'.finalizeScores).final_score = c'.final_score) ∧
    (∃ c', (mobile_calculate_final_scores [MCandidate.init 0] [])[0]? = some c' ∧
      c'.total_zone_score = (dvalues (MCandidate.init 0).critical_zones).sum ∧
      c'.final_score = (MCandidate.init 0).total_infra_score +
        (MCandidate.init 0).total_census_score +
        (dvalues (MCandidate.init 0).critical_zones).sum ∧
      (c'.finalizeScores false).final_score = c'.final_score) ∧
    (∃ c', c' ∈ mobile_normalize_and_weight_scores [MCandidate.init 0] ["a"] ["p"] [1] [1] ∧
      c'.total_infra_score = ((["a"].zip [(1 : ℚ)]).map (fun nw =>
        normalizeMobile (rangeOf (mobileFiniteDurations [MCandidate.init 0] ["a"]))
          ((MCandidate.init 0).rawOf nw.1) * nw.2)).sum ∧
      (∀ n w, (n, w) ∈ ["a"].zip [(1 : ℚ)] → ∃ info,
        dget? c'.infrastructures n = some info ∧
        info.final_score = normalizeMobile
          (rangeOf (mobileFiniteDurations [MCandidate.init 0] ["a"]))
          ((MCandidate.init 0).rawOf n) * w) ∧
      c'.total_census_score = ((["p"].zip [(1 : ℚ)]).map (fun vw =>
        max 0 (min 1 (normalizeMinMax
          (rangeOf ([MCandidate.init 0].map (fun c0 => c0.censusValOf vw.1)))
          ((MCandidate.init 0).censusValOf vw.1))) * vw.2)).sum) := by
  refine ⟨?_, ?_, ?_⟩
  · exact C4_final_score_aggregation.1 [cneg] 0 cneg rfl
  · exact C4_final_score_aggregation.2.1 [MCandidate.init 0] 0 (MCandidate.init 0) rfl
  · exact C4_final_score_aggregation.2.2 [MCandidate.init 0] ["a"] ["p"] [1] [1]
      (MCandidate.init 0) (List.mem_singleton.mpr rfl) (by decide) (by decide)

/-- A feature pair counts as valid in the mobile feature loop when the
reprojection succeeds and the routing collaborator returns a strictly
positive duration. -/
def MInfraFeat.isValid (f : MInfraFeat) : Prop :=
  f.transform_ok = true ∧ ∃ d, f.eta = some (some d) ∧ 0 < d

theorem mobile_eval_feats_all_invalid (feats : List MInfraFeat)
    (h : ∀ f ∈ feats, f.inCoverage = true → ¬ f.isValid) :
    ∀ (ts td : ℚ) (ic iv : ℕ),
    mobile_eval_feats feats ts td ic iv =
      (ts, td, ic + (feats.filter (fun f => f.inCoverage)).length,
       iv + (feats.filter (fun f => f.inCoverage)).length) := by
  induction feats with
  | nil => intro ts td ic iv; simp [mobile_eval_feats]
  | cons f rest ih =>
    intro ts td ic iv
    have hrest : ∀ g ∈ rest, g.inCoverage = true → ¬ g.isValid :=
      fun g hg => h g (List.mem_cons_of_mem f hg)
    by_cases hcov : f.inCoverage = true
    · have hinv := h f (List.mem_cons_self f rest) hcov
      unfold mobile_eval_feats
      rw [hcov]
      simp only [if_true]
      by_cases htr : f.transform_ok = true
      · cases heta : f.eta with
        | none =>
          rw [htr]
          simp only [if_true]
          rw [ih hrest]
          simp [List.filter_cons, hcov]
          omega
        | some od =>
          cases od with
          | none =>
            rw [htr]
            simp only [if_true]
            rw [ih hrest]
            simp [List.filter_cons, hcov]
            omega
          | some d =>
            have hd : ¬ (0 < d) := fun hdp => hinv ⟨htr, d, heta, hdp⟩
            rw [htr]
            simp only [if_true]
            rw [if_neg (by simpa using hd)]
            rw [ih hrest]
            simp [List.filter_cons, hcov]
            omega
      · simp only [htr, if_false]
        rw [ih hrest]
        simp [List.filter_cons, hcov]
        omega
    · have hfalse : f.inCoverage = false := by
        cases hb : f.inCoverage
        · rfl
        · exact absurd hb hcov
      unfold mobile_eval_feats
      rw [hfalse]
      simp only [Bool.false_eq_true, if_false, List.filter_cons, hfalse]
      exact ih hrest ts td ic iv

/-- Claim C5: when every feature of a layer considered within the
coverage area yields an invalid duration (missing, non-positive, or a
routing-collaborator error), the mobile evaluator records count = 0,
rawScore = the infinite sentinel and totalDuration = 0 for that layer,
and the subsequent normalization maps the sentinel to normalized score
exactly 0 and weighted score 0, for every global duration range, without
failing. -/
theorem C5_all_invalid_layer_sentinel (c : MCandidate) (lname : String)
    (feats : List MInfraFeat) (iw : List ℚ)
    (h : ∀ f ∈ feats, f.inCoverage = true → ¬ f.isValid) :
    ∃ info, dget? (mobile_evaluate_infrastructure iw [⟨lname, feats⟩] c).infrastructures
        lname = some info ∧
      info.count = 0 ∧ info.raw_score = .inf ∧ info.total_duration = 0 ∧
      (∀ r : Option (ℚ × ℚ), normalizeMobile r .inf = 0) ∧
      (∀ (cands : List MCandidate) (infra_names census_vars : List String)
         (iw2 cw : List ℚ) (w : ℚ),
         mobile_evaluate_infrastructure iw [⟨lname, feats⟩] c ∈ cands →
         (lname, w) ∈ infra_names.zip iw2 → infra_names.Nodup →
         ∃ c2 info2,
           c2 ∈ mobile_normalize_and_weight_scores cands infra_names census_vars iw2 cw ∧
           dget? c2.infrastructures lname = some info2 ∧ info2.final_score = 0) := by
  have heval : mobile_eval_feats feats 0 0 0 0 =
      (0, 0, (feats.filter (fun f => f.inCoverage)).length,
       (feats.filter (fun f => f.inCoverage)).length) := by
    have := mobile_eval_feats_all_invalid feats h 0 0 0 0
    simpa using this
  have hcond : ¬ ((feats.filter (fun f => f.inCoverage)).length >
      (feats.filter (fun f => f.inCoverage)).length) := lt_irrefl _
  have hres : mobile_evaluate_infrastructure iw [⟨lname, feats⟩] c =
      ((c.update_infrastructure_count lname 0).set_infrastructure_raw_score
        lname .inf).set_infrastructure_total_duration lname 0 := by
    unfold mobile_evaluate_infrastructure
    rw [heval]
    simp only [hcond, if_false]
    rfl
  have hget : dget? (mobile_evaluate_infrastructure iw [⟨lname, feats⟩] c).infrastructures
      lname = some
      { (((c.update_infrastructure_count lname 0).set_infrastructure_raw_score
          lname .inf).infraEntry lname) with total_duration := 0 } := by
    rw [hres]
    unfold MCandidate.set_infrastructure_total_duration
    simp only []
    exact dget?_dset_self _ _ _
  have hentry2 : ((c.update_infrastructure_count lname 0).set_infrastructure_raw_score
      lname .inf).infraEntry lname =
      { ((c.update_infrastructure_count lname 0).infraEntry lname) with
        raw_score := .inf } := by
    unfold MCandidate.set_infrastructure_raw_score MCandidate.infraEntry
    simp only []
    rw [dget?_dset_self]
    rfl
  have hentry1 : (c.update_infrastructure_count lname 0).infraEntry lname =
      { (c.infraEntry lname) with count := 0 } := by
    unfold MCandidate.update_infrastructure_count MCandidate.infraEntry
    simp only []
    rw [dget?_dset_self]
    rfl
  refine ⟨_, hget, ?_, ?_, ?_, fun r => rfl, ?_⟩
  · rw [hentry2, hentry1]
  · rw [hentry2]
  · rfl
  · intro cands infra_names census_vars iw2 cw w hmem hzip hnd
    have hraw : (mobile_evaluate_infrastructure iw [⟨lname, feats⟩] c).rawOf lname =
        .inf := by
      unfold MCandidate.rawOf
      rw [hget, hentry2]
      rfl
    have hnd2 : ((infra_names.zip iw2).map Prod.fst).Nodup := by
      rw [zip_map_fst_eq_take]
      exact hnd.sublist (List.take_sublist _ _)
    obtain ⟨info2, hget2, hfs⟩ :=
      mobileInfraFold_lookup (rangeOf (mobileFiniteDurations cands infra_names))
        (infra_names.zip iw2)
        (mobile_evaluate_infrastructure iw [⟨lname, feats⟩] c, 0) lname w hnd2 hzip
    refine ⟨_, info2, List.mem_map_of_mem _ hmem, ?_, ?_⟩
    · simp only [mobileApplyOne]
      rw [(mobileCensusFold_preserve _ _ _).1]
      exact hget2
    · rw [hfs]
      simp only [hraw]
      simp [normalizeMobile]

theorem C5_sentinel_witness :
    ∃ info, dget? (mobile_evaluate_infrastructure [1]
        [⟨"a", [⟨true, true, none⟩]⟩] (MCandidate.init 0)).infrastructures "a" = some info ∧
      info.count = 0 ∧ info.raw_score = .inf ∧ info.total_duration = 0 ∧
      (∀ r : Option (ℚ × ℚ), normalizeMobile r .inf = 0) ∧
      (∀ (cands : List MCandidate) (infra_names census_vars : List String)
         (iw2 cw : List ℚ) (w : ℚ),
         mobile_evaluate_infrastructure [1] [⟨"a", [⟨true, true, none⟩]⟩]
           (MCandidate.init 0) ∈ cands →
         ("a", w) ∈ infra_names.zip iw2 → infra_names.Nodup →
         ∃ c2 info2,
           c2 ∈ mobile_normalize_and_weight_scores cands infra_names census_vars iw2 cw ∧
           dget? c2.infrastructures "a" = some info2 ∧ info2.final_score = 0) := by
  apply C5_all_invalid_layer_sentinel (MCandidate.init 0) "a" [⟨true, true, none⟩] [1]
  intro f hf _
  have hfe : f = ⟨true, true, none⟩ := by
    cases hf with
    | head => rfl
    | tail _ hf => cases hf
  subst hfe
  rintro ⟨_, d, hd, _⟩
  exact Option.noConfusion hd

/-- Claim C6: the zone evaluation does NOT produce an entry for a zone
layer that supplies no features: the feature loop body never runs, so
neither the intersecting branch nor the 0 branch writes anything (first
and second conjuncts, static and mobile).  For a layer with at least one
feature the first-match behaviour the claim describes does hold: first
intersecting feature wins (third conjunct, exactly one entry), no
intersection writes 0 (fourth conjunct).  The missing empty-layer entry
contradicts the spec's "exactly one entry per candidate" invariant and
the output schema, which allocates one attribute column per zone layer
(`_add_zone_fields`) while attributes are emitted from the
`critical_zones` dict — an empty zone layer misaligns every later
column. -/
theorem C6_empty_zone_layer_no_entry :
    (∃ c', static_evaluate_critical_zones (fun g _ => g == 1) [SCandidate.init 0 0]
        [(⟨"z", []⟩, 5)] = [c'] ∧ dget? c'.critical_zones "z" = none) ∧
    (∃ c', mobile_evaluate_critical_zones (fun g _ => g == 1) [MCandidate.init 0]
        [(⟨"z", []⟩, 5)] = [c'] ∧ dget? c'.critical_zones "z" = none) ∧
    (∃ c', static_evaluate_critical_zones (fun g _ => g == 1) [SCandidate.init 0 0]
        [(⟨"z", [0, 1]⟩, 5)] = [c'] ∧
      dget? c'.critical_zones "z" = some 5 ∧
      (c'.critical_zones.map Prod.fst).count "z" = 1) ∧
    (∃ c', static_evaluate_critical_zones (fun g _ => g == 1) [SCandidate.init 0 0]
        [(⟨"z", [0, 2]⟩, 5)] = [c'] ∧ dget? c'.critical_zones "z" = some 0) := by
  refine ⟨⟨_, rfl, by decide⟩, ⟨_, rfl, by decide⟩, ⟨_, rfl, by decide, by decide⟩,
    ⟨_, rfl, by decide⟩⟩

theorem dget?_dset_isSome_of {α : Type} (d : List (String × α)) (k k' : String) (v : α)
    (h : (dget? d k').isSome) : (dget? (dset d k v) k').isSome := by
  by_cases he : k = k'
  · subst he
    rw [dget?_dset_self]
    rfl
  · rw [dget?_dset_ne _ _ _ _ he]
    exact h

theorem dget?_dset_isSome_cases {α : Type} (d : List (String × α)) (k k' : String) (v : α)
    (h : (dget? (dset d k v) k').isSome) : k' = k ∨ (dget? d k').isSome := by
  by_cases he : k = k'
  · exact Or.inl he.symm
  · rw [dget?_dset_ne _ _ _ _ he] at h
    exact Or.inr h

theorem censusVarsFold_data_keys (f : CensusFeat) (vars : List String) :
    ∀ (c : SCandidate) (k : String),
    (dget? (censusVarsFold f vars c).census_data k).isSome →
    k ∈ vars ∨ (dget? c.census_data k).isSome := by
  induction vars with
  | nil => intro c k h; exact Or.inr h
  | cons v rest ih =>
    intro c k h
    unfold censusVarsFold at h
    simp only [List.foldl_cons] at h
    rcases ih _ k h with hm | hs
    · exact Or.inl (List.mem_cons_of_mem v hm)
    · cases hv : dget? f.cfields v with
      | none =>
        rw [hv] at hs
        exact Or.inr hs
      | some fv =>
        cases fv with
        | num q =>
          rw [hv] at hs
          unfold SCandidate.set_census_data at hs
          simp only [] at hs
          rcases dget?_dset_isSome_cases _ _ _ _ hs with he | hs2
          · exact Or.inl (he ▸ List.mem_cons_self v rest)
          · exact Or.inr hs2
        | null =>
          rw [hv] at hs
          exact Or.inr hs
        | bad =>
          rw [hv] at hs
          exact Or.inr hs

theorem process_census_data_data_keys (c : SCandidate) (census_feats : List CensusFeat)
    (vars : List String) (k : String)
    (h : (dget? (process_census_data c census_feats vars).census_data k).isSome) :
    k ∈ vars ∨ (dget? c.census_data k).isSome := by
  unfold process_census_data at h
  cases hf : census_feats.find? (·.cintersects) with
  | none =>
    rw [hf] at h
    exact Or.inr h
  | some f =>
    rw [hf] at h
    exact censusVarsFold_data_keys f vars c k h

theorem staticApplyInfra_census_data (r : Option (ℚ × ℚ)) (c : SCandidate)
    (nw : String × ℚ) : (staticApplyInfra r c nw).census_data = c.census_data := rfl

theorem staticInfraFold_census_data (r : Option (ℚ × ℚ)) (pairs : List (String × ℚ)) :
    ∀ c : SCandidate,
    (pairs.foldl (staticApplyInfra r) c).census_data = c.census_data := by
  induction pairs with
  | nil => intro c; rfl
  | cons p rest ih =>
    intro c
    simp only [List.foldl_cons]
    rw [ih]
    rfl

theorem staticCensusFold_data_keys (range : String → Option (ℚ × ℚ))
    (pairs : List (String × ℚ)) : ∀ (c : SCandidate) (k : String),
    (dget? (pairs.foldl (staticApplyCensus range) c).census_data k).isSome →
    (∃ q ∈ pairs, k = q.1 ++ "_score") ∨ (dget? c.census_data k).isSome := by
  induction pairs with
  | nil => intro c k h; exact Or.inr h
  | cons p rest ih =>
    intro c k h
    simp only [List.foldl_cons] at h
    rcases ih _ k h with ⟨q, hq, hk⟩ | hs
    · exact Or.inl ⟨q, List.mem_cons_of_mem p hq, hk⟩
    · simp only [staticApplyCensus, SCandidate.set_census_data_score] at hs
      rcases dget?_dset_isSome_cases _ _ _ _ hs with he | hs2
      · exact Or.inl ⟨p, List.mem_cons_self p rest, he⟩
      · exact Or.inr hs2

theorem staticCensusFold_writes_isSome (range : String → Option (ℚ × ℚ))
    (pairs : List (String × ℚ)) : ∀ (c : SCandidate) (v : String) (w : ℚ),
    (v, w) ∈ pairs →
    (dget? (pairs.foldl (staticApplyCensus range) c).census_scores v).isSome ∧
    (dget? (pairs.foldl (staticApplyCensus range) c).census_data (v ++ "_score")).isSome := by
  have hpres : ∀ (pairs2 : List (String × ℚ)) (c : SCandidate) (k1 k2 : String),
      (dget? c.census_scores k1).isSome → (dget? c.census_data k2).isSome →
      (dget? (pairs2.foldl (staticApplyCensus range) c).census_scores k1).isSome ∧
      (dget? (pairs2.foldl (staticApplyCensus range) c).census_data k2).isSome := by
    intro pairs2
    induction pairs2 with
    | nil => intro c k1 k2 h1 h2; exact ⟨h1, h2⟩
    | cons p rest ih =>
      intro c k1 k2 h1 h2
      simp only [List.foldl_cons]
      apply ih
      · simp only [staticApplyCensus, SCandidate.set_census_data_score]
        exact dget?_dset_isSome_of _ _ _ _ h1
      · simp only [staticApplyCensus, SCandidate.set_census_data_score]
        exact dget?_dset_isSome_of _ _ _ _ h2
  induction pairs with
  | nil => intro c v w hm; cases hm
  | cons p rest ih =>
    intro c v w hm
    simp only [List.foldl_cons]
    cases hm with
    | head =>
      apply hpres rest
      · simp only [staticApplyCensus, SCandidate.set_census_data_score]
        rw [dget?_dset_self]
        rfl
      · simp only [staticApplyCensus, SCandidate.set_census_data_score]
        rw [dget?_dset_self]
        rfl
    | tail _ hm =>
      exact ih _ _ _ hm

/-- Claim C7 is false as stated: for a candidate with no intersecting
census unit, the normalization pass still writes a weighted score under
every census variable name, but the raw census map receives only the
dual-storage echo under `variable + "_score"` — the variable itself has
no raw entry, so the weighted-score keys are not a subset of the
raw-value keys. -/
theorem C7_counterexample :
    ∃ c', static_normalize_and_weight_scores
        [process_census_data (SCandidate.init 0 0) [] ["pop"]] [] ["pop"] [] [1] = [c'] ∧
      (dget? c'.census_scores "pop").isSome = true ∧
      dget? c'.census_data "pop" = none := by
  exact ⟨_, rfl, by decide, by decide⟩

theorem censusVarsFold_data_keys_strong (f : CensusFeat) (vars : List String) :
    ∀ (c : SCandidate) (k : String),
    (dget? (censusVarsFold f vars c).census_data k).isSome →
    (k ∈ vars ∧ ∃ q, dget? f.cfields k = some (FieldVal.num q)) ∨
    (dget? c.census_data k).isSome := by
  induction vars with
  | nil => intro c k h; exact Or.inr h
  | cons v rest ih =>
    intro c k h
    unfold censusVarsFold at h
    simp only [List.foldl_cons] at h
    rcases ih _ k h with ⟨hm, hq⟩ | hs
    · exact Or.inl ⟨List.mem_cons_of_mem v hm, hq⟩
    · cases hv : dget? f.cfields v with
      | none =>
        rw [hv] at hs
        exact Or.inr hs
      | some fv =>
        cases fv with
        | num q =>
          rw [hv] at hs
          unfold SCandidate.set_census_data at hs
          simp only [] at hs
          rcases dget?_dset_isSome_cases _ _ _ _ hs with he | hs2
          · subst he
            exact Or.inl ⟨List.mem_cons_self _ _, q, hv⟩
          · exact Or.inr hs2
        | null =>
          rw [hv] at hs
          exact Or.inr hs
        | bad =>
          rw [hv] at hs
          exact Or.inr hs

theorem process_census_data_extracted (c : SCandidate) (census_feats : List CensusFeat)
    (vars : List String) (k : String)
    (h : (dget? (process_census_data c census_feats vars).census_data k).isSome) :
    (k ∈ vars ∧ ∃ f, census_feats.find? (·.cintersects) = some f ∧
      ∃ q, dget? f.cfields k = some (FieldVal.num q)) ∨
    (dget? c.census_data k).isSome := by
  unfold process_census_data at h
  cases hf : census_feats.find? (·.cintersects) with
  | none =>
    rw [hf] at h
    exact Or.inr h
  | some f =>
    rw [hf] at h
    rcases censusVarsFold_data_keys_strong f vars c k h with ⟨hm, q, hq⟩ | hs
    · exact Or.inl ⟨hm, f, rfl, q, hq⟩
    · exact Or.inr hs

/-- Claim C7 (amended): index-pinned over the pipeline of any candidate:
when the candidate at position i of the normalization input is the
result of census processing on a candidate whose raw census map started
empty, the candidate at position i of the output satisfies: every census
variable carried by the weighted-score map has its entry in the raw
`census_data` map only under the suffixed key `variable + "_score"` (the
dual-storage echo); every raw-map key is either such a suffixed key or a
census variable whose value was ACTUALLY EXTRACTED — the first
intersecting census feature exists and carries a numeric value under
that key; and in particular for a candidate with no intersecting census
unit, every raw-map key is a suffixed echo, so the unsuffixed subset
inclusion of the original claim fails exactly there. -/
theorem C7_amended_census_key_invariant
    (c0 : SCandidate) (census_feats : List CensusFeat) (cands : List SCandidate)
    (infra_names vars : List String) (iw cw : List ℚ) (i : ℕ)
    (hc : cands[i]? = some (process_census_data c0 census_feats vars))
    (hinit : c0.census_data = []) :
    ∃ c', (static_normalize_and_weight_scores cands infra_names vars iw cw)[i]? =
        some c' ∧
      (∀ v w, (v, w) ∈ vars.zip cw →
        (dget? c'.census_scores v).isSome ∧
        (dget? c'.census_data (v ++ "_score")).isSome) ∧
      (∀ k, (dget? c'.census_data k).isSome →
        (∃ v0 ∈ vars, k = v0 ++ "_score") ∨
        (k ∈ vars ∧ ∃ f, census_feats.find? (·.cintersects) = some f ∧
          ∃ q, dget? f.cfields k = some (FieldVal.num q))) ∧
      (census_feats.find? (·.cintersects) = none →
        ∀ k, (dget? c'.census_data k).isSome → ∃ v0 ∈ vars, k = v0 ++ "_score") := by
  refine ⟨(vars.zip cw).foldl
      (staticApplyCensus (fun u => rangeOf (staticCensusValues cands u)))
      ((infra_names.zip iw).foldl
        (staticApplyInfra (rangeOf (staticInfraRawScores cands infra_names)))
        (process_census_data c0 census_feats vars)), ?_, ?_, ?_, ?_⟩
  · simp only [static_normalize_and_weight_scores, List.getElem?_map, hc]
    rfl
  · intro v w hm
    exact staticCensusFold_writes_isSome _ _ _ v w hm
  · intro k hk
    rcases staticCensusFold_data_keys _ _ _ _ hk with ⟨q, hq, hkq⟩ | hs
    · exact Or.inl ⟨q.1, (List.of_mem_zip hq).1, hkq⟩
    · rw [staticInfraFold_census_data] at hs
      rcases process_census_data_extracted _ _ _ _ hs with hfact | hs2
      · exact Or.inr hfact
      · rw [hinit] at hs2
        simp [dget?] at hs2
  · intro hnone k hk
    rcases staticCensusFold_data_keys _ _ _ _ hk with ⟨q, hq, hkq⟩ | hs
    · exact ⟨q.1, (List.of_mem_zip hq).1, hkq⟩
    · rw [staticInfraFold_census_data] at hs
      rcases process_census_data_extracted _ _ _ _ hs with ⟨_, f, hf, _⟩ | hs2
      · rw [hnone] at hf
        cases hf
      · rw [hinit] at hs2
        simp [dget?] at hs2

theorem C7_amended_witness :
    ∃ c', (static_normalize_and_weight_scores
        [process_census_data (SCandidate.init 0 0) [] ["pop"]] [] ["pop"] [] [1])[0]? =
      some c' ∧
      (∀ v w, (v, w) ∈ ["pop"].zip [(1 : ℚ)] →
        (dget? c'.census_scores v).isSome ∧
        (dget? c'.census_data (v ++ "_score")).isSome) ∧
      (∀ k, (dget? c'.census_data k).isSome →
        (∃ v0 ∈ ["pop"], k = v0 ++ "_score") ∨
        (k ∈ ["pop"] ∧ ∃ f, ([] : List CensusFeat).find? (·.cintersects) = some f ∧
          ∃ q, dget? f.cfields k = some (FieldVal.num q))) ∧
      (([] : List CensusFeat).find? (·.cintersects) = none →
        ∀ k, (dget? c'.census_data k).isSome → ∃ v0 ∈ ["pop"], k = v0 ++ "_score") :=
  C7_amended_census_key_invariant (SCandidate.init 0 0) []
    [process_census_data (SCandidate.init 0 0) [] ["pop"]] [] ["pop"] [] [1] 0 rfl rfl

/-- Claim C8 is false as stated: a failed routing request is swallowed
inside `calculate_road_distance`, which returns the infinite sentinel, so
the in-buffer pair at Haversine distance 1 inside a buffer of 10
contributes 0 to the raw score — not max(0, 10 − 1) = 9 as the claimed
Haversine fallback would give. -/
theorem C8_counterexample :
    ∃ c', static_evaluate_infrastructure (SCandidate.init 0 0)
        [⟨"L", [⟨true, true, none, 1, none⟩]⟩] [1] 10 0 = .ok c' ∧
      (dget? c'.infrastructures "L").map (·.raw_score) = some 0 ∧
      (0 : ℚ) ≠ max 0 (10 - 1) := by
  refine ⟨_, rfl, ?_, by norm_num⟩
  simp [static_evaluate_infrastructure, static_eval_feats, staticPairDistance,
    calculate_road_distance, featScore, SCandidate.update_infrastructure_count,
    SCandidate.set_infrastructure_raw_score, SCandidate.infraEntry, SCandidate.init,
    dget?, dset, InfraInfo.init]

/-- Claim C8 (amended): in the static model with the road method
selected, a failure of the routing request itself is caught inside
`calculate_road_distance` and returned as an infinite distance, so that
pair contributes 0 (not the Haversine value); the `except` fallback to
the Haversine distance in `evaluate_infrastructure` is reachable only
when `calculate_road_distance` raises, which happens exactly when the
coordinate transform fails — and then the fallback recomputes the same
transform, fails again, and the exception propagates out of the whole
evaluation. -/
theorem C8_road_failure_amended :
    (∀ f : SInfraFeat, f.transform_ok = true → f.osrm_dist = none →
      calculate_road_distance f = .ok .inf ∧ (∀ R : ℚ, featScore R .inf = 0)) ∧
    (∀ (R : ℚ) (lname : String) (f : SInfraFeat) (rest : List SInfraFeat)
       (c : SCandidate) (ts : ℚ) (ic : ℕ),
       f.inBuffer = true → f.transform_ok = true → f.osrm_dist = none →
       static_eval_feats R 0 lname (f :: rest) c ts ic =
         static_eval_feats R 0 lname rest c (ts + 0) (ic + 1)) ∧
    (∀ (R : ℚ) (lname : String) (f : SInfraFeat) (rest : List SInfraFeat)
       (c : SCandidate) (ts : ℚ) (ic : ℕ),
       f.inBuffer = true → f.transform_ok = false →
       static_eval_feats R 0 lname (f :: rest) c ts ic = .error ()) := by
  refine ⟨?_, ?_, ?_⟩
  · intro f htr hos
    refine ⟨?_, fun R => rfl⟩
    unfold calculate_road_distance
    rw [htr, hos]
    rfl
  · intro R lname f rest c ts ic hib htr hos
    have hdist : staticPairDistance 0 f = .ok .inf := by
      unfold staticPairDistance calculate_road_distance
      rw [htr, hos]
      rfl
    conv_lhs => unfold static_eval_feats
    rw [hib]
    simp only [if_true, hdist]
    simp [featScore]
  · intro R lname f rest c ts ic hib htr
    have hdist : staticPairDistance 0 f = .error () := by
      unfold staticPairDistance calculate_road_distance
      rw [htr]
      rfl
    conv_lhs => unfold static_eval_feats
    rw [hib]
    simp [hdist]

theorem C8_amended_witness :
    (calculate_road_distance ⟨true, true, none, 1, none⟩ = .ok .inf ∧
      (∀ R : ℚ, featScore R .inf = 0)) ∧
    static_eval_feats 10 0 "L" [⟨true, true, none, 1, none⟩] (SCandidate.init 0 0) 0 0 =
      static_eval_feats 10 0 "L" [] (SCandidate.init 0 0) (0 + 0) (0 + 1) ∧
    static_eval_feats 10 0 "L" [⟨true, false, none, 1, none⟩] (SCandidate.init 0 0) 0 0 =
      .error () := by
  refine ⟨C8_road_failure_amended.1 ⟨true, true, none, 1, none⟩ rfl rfl, ?_, ?_⟩
  · exact C8_road_failure_amended.2.1 10 "L" ⟨true, true, none, 1, none⟩ []
      (SCandidate.init 0 0) 0 0 rfl rfl rfl
  · exact C8_road_failure_amended.2.2 10 "L" ⟨true, false, none, 1, none⟩ []
      (SCandidate.init 0 0) 0 0 rfl rfl

theorem mobile_calc_getElem (cands : List MCandidate) : ∀ (flags : List Bool) (i : ℕ),
    (mobile_calculate_final_scores cands flags)[i]? =
      (cands[i]?).map (·.finalizeScores (flags.getD i false)) := by
  induction cands with
  | nil => intro flags i; simp [mobile_calculate_final_scores]
  | cons c rest ih =>
    intro flags i
    cases i with
    | zero => cases flags <;> simp [mobile_calculate_final_scores]
    | succ j =>
      have ht : flags.getD (j + 1) false = flags.tail.getD j false := by
        cases flags <;> simp
      simp [mobile_calculate_final_scores, ht, ih]

theorem mobile_calc_length (cands : List MCandidate) : ∀ flags : List Bool,
    (mobile_calculate_final_scores cands flags).length = cands.length := by
  induction cands with
  | nil => intro flags; rfl
  | cons c rest ih =>
    intro flags
    simp [mobile_calculate_final_scores, ih]

theorem static_calc_raises (cands : List SCandidate) : ∀ (flags : List Bool) (i : ℕ),
    i < cands.length → flags.getD i false = true →
    static_calculate_final_scores cands flags = .error () := by
  induction cands with
  | nil =>
    intro flags i hi _
    simp at hi
  | cons c rest ih =>
    intro flags i hi hf
    unfold static_calculate_final_scores
    by_cases h0 : flags.headD false = true
    · rw [h0]
      simp
    · have h0' : flags.headD false = false := by
        cases hb : flags.headD false
        · rfl
        · exact absurd hb h0
      rw [h0']
      simp only [Bool.false_eq_true, if_false]
      cases i with
      | zero =>
        have : flags.getD 0 false = flags.headD false := by
          cases flags <;> simp
        rw [this, h0'] at hf
        cases hf
      | succ j =>
        have ht : flags.getD (j + 1) false = flags.tail.getD j false := by
          cases flags <;> simp
        rw [ht] at hf
        have hj : j < rest.length := by
          simp at hi
          omega
        rw [ih flags.tail j hj hf]

/-- Claim C9 is false as stated for the static model: the static
`calculate_final_scores` has no per-candidate exception handler, so an
exception raised while processing the first of two candidates (here: the
external log sink raising) propagates and aborts the whole pass — no
candidate's final score is set to 0 and the second candidate's result is
lost (`processAlgorithm` re-raises, aborting the run). -/
theorem C9_counterexample :
    static_calculate_final_scores [SCandidate.init 0 0, SCandidate.init 1 1]
      [true, false] = .error () := by
  rfl

/-- Claim C9 (amended): per-candidate recovery exists only in the mobile
model's `calculate_final_scores`: there, a candidate whose body raises
(modelled at the external log-sink call) gets `finalScore = 0` while
every other candidate's final score is still computed and retained, and
the output keeps one entry per candidate.  In the static model any such
exception propagates and the whole pass fails. -/
theorem C9_amended_per_candidate_recovery :
    (∀ (cands : List MCandidate) (flags : List Bool) (i : ℕ) (c : MCandidate),
      cands[i]? = some c →
      ∃ c', (mobile_calculate_final_scores cands flags)[i]? = some c' ∧
        (flags.getD i false = true → c'.final_score = 0) ∧
        (flags.getD i false = false → c'.final_score =
          c.total_infra_score + c.total_census_score + (dvalues c.critical_zones).sum) ∧
        (mobile_calculate_final_scores cands flags).length = cands.length) ∧
    (∀ (cands : List SCandidate) (flags : List Bool) (i : ℕ),
      i < cands.length → flags.getD i false = true →
      static_calculate_final_scores cands flags = .error ()) := by
  constructor
  · intro cands flags i c hc
    refine ⟨c.finalizeScores (flags.getD i false), ?_, ?_, ?_, mobile_calc_length cands flags⟩
    · rw [mobile_calc_getElem, hc]
      rfl
    · intro hf
      rw [hf]
      rfl
    · intro hf
      rw [hf]
      exact (mfinalize_fields c).2
  · exact static_calc_raises

theorem C9_recovery_witness :
    (∃ c', (mobile_calculate_final_scores [MCandidate.init 0, MCandidate.init 1]
        [true, false])[0]? = some c' ∧
      (([true, false].getD 0 false) = true → c'.final_score = 0) ∧
      (([true, false].getD 0 false) = false → c'.final_score =
        (MCandidate.init 0).total_infra_score + (MCandidate.init 0).total_census_score +
          (dvalues (MCandidate.init 0).critical_zones).sum) ∧
      (mobile_calculate_final_scores [MCandidate.init 0, MCandidate.init 1]
        [true, false]).length = 2) ∧
    static_calculate_final_scores [SCandidate.init 0 0, SCandidate.init 1 1]
      [true, false] = .error () := by
  constructor
  · exact C9_amended_per_candidate_recovery.1 [MCandidate.init 0, MCandidate.init 1]
      [true, false] 0 (MCandidate.init 0) rfl
  · exact C9_amended_per_candidate_recovery.2 [SCandidate.init 0 0, SCandidate.init 1 1]
      [true, false] 0 (by norm_num) rfl

theorem mobileFiniteDurations_append (l1 l2 : List MCandidate) (names : List String) :
    mobileFiniteDurations (l1 ++ l2) names =
      mobileFiniteDurations l1 names ++ mobileFiniteDurations l2 names := by
  induction l1 with
  | nil => simp [mobileFiniteDurations]
  | cons c rest ih =>
    simp only [List.cons_append]
    have h1 : mobileFiniteDurations (c :: (rest ++ l2)) names =
        (names.filterMap (fun n =>
          match c.rawOf n with
          | MScore.fin d => some d
          | MScore.inf => none)) ++ mobileFiniteDurations (rest ++ l2) names := rfl
    have h2 : mobileFiniteDurations (c :: rest) names =
        (names.filterMap (fun n =>
          match c.rawOf n with
          | MScore.fin d => some d
          | MScore.inf => none)) ++ mobileFiniteDurations rest names := rfl
    rw [h1, h2, ih, List.append_assoc]

/-- Claim C10: the mobile global duration range is computed only over
finite raw scores (a candidate whose every layer carries the infinite
sentinel contributes nothing to the scanned duration list), and
consequently extending the candidate set with such an all-sentinel
candidate leaves every original candidate's stored infrastructure map
(per-layer weighted scores) and total infrastructure score unchanged
under the normalization pass. -/
theorem C10_sentinel_candidate_invariance
    (cands : List MCandidate) (cInf : MCandidate) (infra_names census_vars : List String)
    (iw cw : List ℚ)
    (hinf : ∀ n ∈ infra_names, cInf.rawOf n = .inf) :
    mobileFiniteDurations (cands ++ [cInf]) infra_names =
      mobileFiniteDurations cands infra_names ∧
    (∀ (i : ℕ) (c : MCandidate), cands[i]? = some c →
      ∃ c1 c2,
        (mobile_normalize_and_weight_scores cands infra_names census_vars iw cw)[i]? =
          some c1 ∧
        (mobile_normalize_and_weight_scores (cands ++ [cInf]) infra_names census_vars
          iw cw)[i]? = some c2 ∧
        c2.infrastructures = c1.infrastructures ∧
        c2.total_infra_score = c1.total_infra_score) := by
  have hbase : mobileFiniteDurations [cInf] infra_names = [] := by
    unfold mobileFiniteDurations
    rw [List.filterMap_eq_nil_iff.mpr]
    · rfl
    · intro n hn
      rw [hinf n hn]
  have hpart1 : mobileFiniteDurations (cands ++ [cInf]) infra_names =
      mobileFiniteDurations cands infra_names := by
    rw [mobileFiniteDurations_append, hbase, List.append_nil]
  refine ⟨hpart1, ?_⟩
  intro i c hc
  have hi : i < cands.length := (List.getElem?_eq_some_iff.mp hc).1
  have hc2 : (cands ++ [cInf])[i]? = some c := by
    rw [List.getElem?_append, if_pos hi]
    exact hc
  refine ⟨mobileApplyOne (rangeOf (mobileFiniteDurations cands infra_names))
      (fun v => rangeOf (cands.map (fun c0 => c0.censusValOf v)))
      (infra_names.zip iw) (census_vars.zip cw) c,
    mobileApplyOne (rangeOf (mobileFiniteDurations (cands ++ [cInf]) infra_names))
      (fun v => rangeOf ((cands ++ [cInf]).map (fun c0 => c0.censusValOf v)))
      (infra_names.zip iw) (census_vars.zip cw) c, ?_, ?_, ?_, ?_⟩
  · simp only [mobile_normalize_and_weight_scores, List.getElem?_map, hc]
    rfl
  · simp only [mobile_normalize_and_weight_scores, List.getElem?_map, hc2]
    rfl
  · simp only [mobileApplyOne]
    rw [(mobileCensusFold_preserve _ _ _).1, (mobileCensusFold_preserve _ _ _).1]
    simp only []
    rw [hpart1]
  · simp only [mobileApplyOne]
    rw [(mobileCensusFold_preserve _ _ _).2.1, (mobileCensusFold_preserve _ _ _).2.1]
    simp only []
    rw [hpart1]

theorem C10_invariance_witness :
    mobileFiniteDurations
        ([(MCandidate.init 0).set_infrastructure_raw_score "a" (.fin 100)] ++
          [MCandidate.init 1]) ["a"] =
      mobileFiniteDurations
        [(MCandidate.init 0).set_infrastructure_raw_score "a" (.fin 100)] ["a"] ∧
    (∀ (i : ℕ) (c : MCandidate),
      [(MCandidate.init 0).set_infrastructure_raw_score "a" (.fin 100)][i]? = some c →
      ∃ c1 c2,
        (mobile_normalize_and_weight_scores
          [(MCandidate.init 0).set_infrastructure_raw_score "a" (.fin 100)]
          ["a"] [] [1] [])[i]? = some c1 ∧
        (mobile_normalize_and_weight_scores
          ([(MCandidate.init 0).set_infrastructure_raw_score "a" (.fin 100)] ++
            [MCandidate.init 1]) ["a"] [] [1] [])[i]? = some c2 ∧
        c2.infrastructures = c1.infrastructures ∧
        c2.total_infra_score = c1.total_infra_score) :=
  C10_sentinel_candidate_invariance
    [(MCandidate.init 0).set_infrastructure_raw_score "a" (.fin 100)]
    (MCandidate.init 1) ["a"] [] [1] [] (by decide)
